import Mathlib

/-!
Verification development for the catalog-driven slot generator and reverse
prompt parser (auto_prompt/prompt_generator.py, auto_prompt/nodes.py,
web/routes/parser.py).

Python strings are modelled as `List Char`; Python dicts as association
lists with insertion-order update semantics; Python floats as rationals
(decimal rounding is modelled exactly on rationals, which agrees with the
CPython behaviour on every value used in this development); the process
global `random` source as an explicit stream of naturals threaded through
the sampling functions.
-/

set_option maxRecDepth 4000

abbrev Str := List Char

/-- Python `str.lower()` (ASCII case folding, as used by the catalogs). -/
def lowerStr (s : Str) : Str := s.map Char.toLower

/-- Characters that Python `str.strip()` / `str.split()` treat as whitespace. -/
def isPySpace (c : Char) : Bool :=
  c = ' ' ∨ c = '\t' ∨ c = '\n' ∨ c = '\r' ∨ c = '\x0b' ∨ c = '\x0c'

/-- Python `str.strip()`. -/
def pyStrip (s : Str) : Str :=
  ((s.dropWhile isPySpace).reverse.dropWhile isPySpace).reverse

/-- Python `s.split(sep)` for a one-character separator: keeps empty pieces. -/
def splitOnChar (sep : Char) : Str → List Str
  | [] => [[]]
  | c :: rest =>
    if c = sep then [] :: splitOnChar sep rest
    else
      match splitOnChar sep rest with
      | h :: t => (c :: h) :: t
      | [] => [[c]]

/-- Python `str.split()` with no argument: split on whitespace runs, no empties. -/
def pySplitWsAux : Str → Str → List Str
  | [], acc => if acc = [] then [] else [acc.reverse]
  | c :: rest, acc =>
    if isPySpace c then
      if acc = [] then pySplitWsAux rest [] else acc.reverse :: pySplitWsAux rest []
    else pySplitWsAux rest (c :: acc)

def pySplitWs (s : Str) : List Str := pySplitWsAux s []

/-- `sep.join(parts)`. -/
def joinSep (sep : Str) : List Str → Str
  | [] => []
  | [p] => p
  | p :: rest => p ++ sep ++ joinSep sep rest

def rfindCharAux (c : Char) : Str → Nat → Option Nat → Option Nat
  | [], _, best => best
  | x :: rest, i, best =>
    rfindCharAux c rest (i + 1) (if x = c then some i else best)

/-- Python `s.rfind(c)`: index of the last occurrence, if any. -/
def rfindChar (c : Char) (s : Str) : Option Nat := rfindCharAux c s 0 none

/-- Association-list model of a Python dict: first binding wins on lookup. -/
def dGet {κ α : Type} [DecidableEq κ] : List (κ × α) → κ → Option α
  | [], _ => none
  | (k', v) :: rest, k => if k' = k then some v else dGet rest k

/-- Python dict assignment: overwrite in place, or append a new binding. -/
def dSet {κ α : Type} [DecidableEq κ] : List (κ × α) → κ → α → List (κ × α)
  | [], k, v => [(k, v)]
  | (k', v') :: rest, k, v =>
    if k' = k then (k, v) :: rest else (k', v') :: dSet rest k v

def dHas {κ α : Type} [DecidableEq κ] (d : List (κ × α)) (k : κ) : Bool :=
  (dGet d k).isSome

/-- Python truthiness of an optional string: `None` and `""` are falsy. -/
def truthyOptStr : Option Str → Bool
  | some (_ :: _) => true
  | _ => false

/-- Python truthiness of an optional list (`None` and `[]` are falsy). -/
def truthyL {α : Type} : Option (List α) → Bool
  | some (_ :: _) => true
  | _ => false

/-! ### Exact rationals with executable (structurally recursive) arithmetic

Python float values are modelled as exact rationals.  `Q` carries a
numerator and a (positive, by construction) denominator; all operations
normalize through a fuel-based Euclidean gcd so that every arithmetic
step reduces definitionally. -/

def natGcdAux : Nat → Nat → Nat → Nat
  | 0, a, _ => a
  | Nat.succ fuel, a, b => if a = 0 then b else natGcdAux fuel (b % a) a

/-- Euclidean gcd; the first argument strictly decreases each step, so
fuel `a + 1` always suffices. -/
def natGcd (a b : Nat) : Nat := natGcdAux (a + 1) a b

structure Q where
  num : Int
  den : Nat
deriving DecidableEq

/-- Build a normalized rational from numerator and (nonzero) denominator. -/
def mkQ (n d : Int) : Q :=
  let s : Int := if d < 0 then -1 else 1
  let n := n * s
  let dd := (d * s).toNat
  let g := natGcd n.natAbs dd
  if g = 0 then ⟨0, 1⟩ else ⟨n / (g : Int), dd / g⟩

def qZero : Q := ⟨0, 1⟩
def qOne : Q := ⟨1, 1⟩

/-- Value equality of rationals (Python float `==`). -/
def Q.eqv (a b : Q) : Bool := a.num * (b.den : Int) = b.num * (a.den : Int)

/-- Value order (Python float `<`), valid for positive denominators. -/
def Q.lt (a b : Q) : Bool := a.num * (b.den : Int) < b.num * (a.den : Int)

def Q.le (a b : Q) : Bool := ¬ Q.lt b a

def Q.mul (a b : Q) : Q := mkQ (a.num * b.num) ((a.den : Int) * (b.den : Int))

def Q.add (a b : Q) : Q :=
  mkQ (a.num * (b.den : Int) + b.num * (a.den : Int)) ((a.den : Int) * (b.den : Int))

def Q.neg (a : Q) : Q := ⟨-a.num, a.den⟩

/-- Division (callers never divide by zero). -/
def Q.div (a b : Q) : Q := mkQ (a.num * (b.den : Int)) ((a.den : Int) * b.num)

def natDigitsAux : Nat → Nat → Str
  | 0, _ => []
  | Nat.succ fuel, n =>
    if n < 10 then [Nat.digitChar n]
    else natDigitsAux fuel (n / 10) ++ [Nat.digitChar (n % 10)]

/-- Decimal digits of a natural number, most significant first (fuel-based
so that it reduces definitionally; fuel `n + 1` always suffices). -/
def natDigits (n : Nat) : Str := natDigitsAux (n + 1) n

def isDigitChar (c : Char) : Bool := '0' ≤ c ∧ c ≤ '9'

def digitVal (c : Char) : Nat := c.toNat - 48

/-- Numeric value of a digit string (as a natural). -/
def digitsVal (s : Str) : Nat := s.foldl (fun acc c => acc * 10 + digitVal c) 0

/-- Round half to even (the rounding CPython applies in `round` and in
`%.1f` formatting). -/
def roundHE (q : Q) : Int :=
  let d : Int := q.den
  let f : Int := Int.fdiv q.num d
  let rnum : Int := q.num - f * d
  if 2 * rnum < d then f
  else if d < 2 * rnum then f + 1
  else if f % 2 = 0 then f else f + 1

/-- Python `round(x, 3)`. -/
def round3 (q : Q) : Q := mkQ (roundHE (q.mul ⟨1000, 1⟩)) 1000

/-- Python `f"{w:.1f}"`. -/
def fmt1 (w : Q) : Str :=
  let n : Int := roundHE (w.mul ⟨10, 1⟩)
  (if Q.lt w qZero then ['-'] else []) ++
    natDigits (n.natAbs / 10) ++ '.' :: [Nat.digitChar (n.natAbs % 10)]

/-- Python `float(s)` restricted to the decimal literals this program
produces and consumes (optional sign, digits, optional fraction part);
returns `none` on anything malformed. -/
def pyFloat? (s : Str) : Option Q :=
  let s := pyStrip s
  let sign : Int := if s.head? = some '-' then -1 else 1
  let body : Str :=
    if s.head? = some '-' ∨ s.head? = some '+' then s.drop 1 else s
  match splitOnChar '.' body with
  | [ip, fp] =>
    if ip = [] ∧ fp = [] then none
    else if ip.all isDigitChar ∧ fp.all isDigitChar then
      some (mkQ (sign * ((digitsVal ip : Int) * (10 ^ fp.length : Int) + (digitsVal fp : Int)))
        (10 ^ fp.length : Int))
    else none
  | [ip] =>
    if ip ≠ [] ∧ ip.all isDigitChar then some (mkQ (sign * (digitsVal ip : Int)) 1) else none
  | _ => none

/-! ## Data model (prompt_generator.py) -/

/-- One catalog record, with the fields this engine reads.  `name` is an
`Option` because the loader distinguishes a missing `"name"` key
(`item.get("name", item.get("id", ""))` falls back to the id) from an
empty string. -/
structure Item where
  id : Str
  name : Option Str
  nameI18n : List (Str × Str)
  coversLegs : Bool
deriving DecidableEq

/-- `SlotConfig` (prompt_generator.py lines 17-41). -/
structure SlotConfig where
  enabled : Bool := true
  locked : Bool := false
  value : Option Str := none
  value_id : Option Str := none
  color : Option Str := none
  color_enabled : Bool := false
  weight : Q := qOne
deriving DecidableEq

/-- `GeneratorConfig` (prompt_generator.py lines 44-82); metadata fields
that never influence generation are omitted. -/
structure GeneratorConfig where
  slots : List (Str × SlotConfig) := []
  color_mode : Str := []
  active_palette_id : Option Str := none
  full_body_mode : Bool := true
deriving DecidableEq

/-- An entry of `PromptGenerator.SLOT_DEFINITIONS`. -/
structure SlotDef where
  catalog : Str
  hasColor : Bool
deriving DecidableEq

/-- The loaded-catalog state of a `PromptGenerator`: the data the engine
reads after `_load_catalogs` has run (the JSON files themselves are
external data, not part of the repository). `slotOptions` is the result of
`get_slot_options` per slot; `catalogItems` holds each catalog's `items`
list in file order (`items_by_id` and `item_id_by_name` are derived from
it below exactly as the loader builds them). -/
structure Env where
  slotOptions : List (Str × List Item)
  catalogItems : List (Str × List Item)
  individualColors : List Str
  colorI18n : List (Str × List (Str × Str))
  palettes : List (Str × List Str)
deriving DecidableEq

/-- `PromptGenerator.SLOT_DEFINITIONS`, in declaration order. -/
def SLOT_DEFINITIONS : List (Str × SlotDef) :=
  [ ("hair_style".toList, ⟨"hair".toList, false⟩)
  , ("hair_length".toList, ⟨"hair".toList, false⟩)
  , ("hair_color".toList, ⟨"hair".toList, false⟩)
  , ("hair_texture".toList, ⟨"hair".toList, false⟩)
  , ("eye_color".toList, ⟨"eyes".toList, false⟩)
  , ("eye_expression_quality".toList, ⟨"eyes".toList, false⟩)
  , ("eye_shape".toList, ⟨"eyes".toList, false⟩)
  , ("eye_pupil_state".toList, ⟨"eyes".toList, false⟩)
  , ("eye_state".toList, ⟨"eyes".toList, false⟩)
  , ("eye_accessories".toList, ⟨"eyes".toList, false⟩)
  , ("body_type".toList, ⟨"body".toList, false⟩)
  , ("height".toList, ⟨"body".toList, false⟩)
  , ("skin".toList, ⟨"body".toList, false⟩)
  , ("age_appearance".toList, ⟨"body".toList, false⟩)
  , ("special_features".toList, ⟨"body".toList, false⟩)
  , ("expression".toList, ⟨"expressions".toList, false⟩)
  , ("head".toList, ⟨"clothing".toList, true⟩)
  , ("neck".toList, ⟨"clothing".toList, true⟩)
  , ("upper_body".toList, ⟨"clothing".toList, true⟩)
  , ("waist".toList, ⟨"clothing".toList, true⟩)
  , ("lower_body".toList, ⟨"clothing".toList, true⟩)
  , ("full_body".toList, ⟨"clothing".toList, true⟩)
  , ("outerwear".toList, ⟨"clothing".toList, true⟩)
  , ("hands".toList, ⟨"clothing".toList, true⟩)
  , ("legs".toList, ⟨"clothing".toList, true⟩)
  , ("feet".toList, ⟨"clothing".toList, true⟩)
  , ("accessory".toList, ⟨"clothing".toList, true⟩)
  , ("pose".toList, ⟨"poses".toList, false⟩)
  , ("gesture".toList, ⟨"poses".toList, false⟩)
  , ("view_angle".toList, ⟨"view_angles".toList, false⟩)
  , ("background".toList, ⟨"backgrounds".toList, false⟩)
  ]

def slotDefNames : List Str := SLOT_DEFINITIONS.map Prod.fst

def slotHasColor (s : Str) : Bool :=
  match dGet SLOT_DEFINITIONS s with
  | some d => d.hasColor
  | none => false

def upperBodyName : Str := "upper_body".toList
def lowerBodyName : Str := "lower_body".toList
def fullBodyName : Str := "full_body".toList
def legsName : Str := "legs".toList
def enName : Str := "en".toList
def zhName : Str := "zh".toList
def randomModeName : Str := "random".toList

/-- `get_slot_options`: the per-slot option lists are environment data. -/
def getSlotOptions (env : Env) (slotName : Str) : List Item :=
  (dGet env.slotOptions slotName).getD []

/-- `items_by_id[catalog].get(id)`: the loader writes
`{item["id"]: item for item in items}`, so the last item wins. -/
def itemById (items : List Item) (id : Str) : Option Item :=
  items.reverse.find? (fun it => it.id = id)

/-- `item_id_by_name[catalog].get(key)`: built from truthy string names,
each written as `map[label.strip().lower()] = item["id"]`, last one wins. -/
def itemIdByName (items : List Item) (key : Str) : Option Str :=
  (items.filterMap (fun it =>
    match it.name with
    | some nm => if nm ≠ [] ∧ lowerStr (pyStrip nm) = key then some it.id else none
    | none => none)).getLast?

/-- `PromptGenerator.normalize_language`. -/
def normalizeLanguage (language : Str) : Str :=
  let code := lowerStr (pyStrip (if language = [] then enName else language))
  if zhName.isPrefixOf code then zhName else enName

/-- `PromptGenerator.get_item_localized_name`. -/
def getItemLocalizedName (it : Item) (language : Str) : Str :=
  let lang := normalizeLanguage language
  let fromLang := dGet it.nameI18n lang
  let localized := if truthyOptStr fromLang then fromLang else dGet it.nameI18n enName
  match localized with
  | some s => if pyStrip s ≠ [] then s else (match it.name with | some n => n | none => it.id)
  | none => (match it.name with | some n => n | none => it.id)

/-- `PromptGenerator.localize_color_token`. -/
def localizeColorToken (env : Env) (colorToken : Option Str) (language : Str) : Option Str :=
  match colorToken with
  | none => none
  | some ct =>
    if ct = [] then none
    else
      let lang := normalizeLanguage language
      match dGet env.colorI18n ct with
      | some names =>
        let fromLang := dGet names lang
        let localized := if truthyOptStr fromLang then fromLang else dGet names enName
        match localized with
        | some s => if pyStrip s ≠ [] then some s else some ct
        | none => some ct
      | none => some ct

/-- `PromptGenerator.get_slot_item_by_id`. -/
def getSlotItemById (env : Env) (slotName : Str) (itemId : Option Str) : Option Item :=
  match itemId with
  | none => none
  | some id =>
    if id = [] then none
    else
      match dGet SLOT_DEFINITIONS slotName with
      | none => none
      | some sd => itemById ((dGet env.catalogItems sd.catalog).getD []) id

/-- `PromptGenerator.resolve_slot_item`. -/
def resolveSlotItem (env : Env) (slotName : Str)
    (valueId valueName : Option Str) : Option Item :=
  match dGet SLOT_DEFINITIONS slotName with
  | none => none
  | some sd =>
    let items := (dGet env.catalogItems sd.catalog).getD []
    let byId : Option Item :=
      match valueId with
      | some id => if id ≠ [] then itemById items id else none
      | none => none
    match byId with
    | some it => some it
    | none =>
      match valueName with
      | some nm =>
        if nm ≠ [] then
          match itemIdByName items (lowerStr (pyStrip nm)) with
          | some mid => if mid ≠ [] then itemById items mid else none
          | none => none
        else none
      | none => none

/-- `PromptGenerator.resolve_slot_value_name`. -/
def resolveSlotValueName (env : Env) (slotName : Str)
    (valueId valueName : Option Str) (language : Str) : Option Str :=
  (resolveSlotItem env slotName valueId valueName).map
    (fun it => getItemLocalizedName it language)

/-- `PromptGenerator.lower_body_id_covers_legs`. -/
def lowerBodyIdCoversLegs (env : Env) (itemId : Option Str) : Bool :=
  match itemId with
  | none => false
  | some id =>
    if id = [] then false
    else
      match getSlotItemById env lowerBodyName (some id) with
      | some it => it.coversLegs
      | none => false

/-! ## Randomization engine (prompt_generator.py) -/

/-- The process-wide `random` module state: a stream of naturals indexed by
a draw counter.  `random.seed(s)` replaces the whole state with a stream
that is a function of `s` alone. -/
structure Rng where
  f : Nat → Nat
  k : Nat

def Rng.next (r : Rng) : Nat × Rng := (r.f r.k, { r with k := r.k + 1 })

/-- `random.choice(xs)` on a non-empty sequence; callers guard emptiness. -/
def randomChoice {α : Type} (r : Rng) (xs : List α) : Option α × Rng :=
  let (n, r') := r.next
  (xs[n % xs.length]?, r')

/-- `PromptGenerator.sample_slot`: returns without drawing when there are
no options. -/
def sampleSlot (env : Env) (r : Rng) (slotName : Str) : Option Item × Rng :=
  let options := getSlotOptions env slotName
  if options = [] then (none, r) else randomChoice r options

/-- `PromptGenerator.sample_color_from_palette`. -/
def sampleColorFromPalette (env : Env) (r : Rng) (paletteId : Str) :
    Option Str × Rng :=
  match dGet env.palettes paletteId with
  | none => (none, r)
  | some colors => if colors = [] then (none, r) else randomChoice r colors

def basicColors : List Str :=
  ["white".toList, "black".toList, "red".toList, "blue".toList,
   "pink".toList, "purple".toList, "green".toList, "yellow".toList]

/-- `PromptGenerator.sample_random_color`. -/
def sampleRandomColor (env : Env) (r : Rng) : Option Str × Rng :=
  if env.individualColors = [] then randomChoice r basicColors
  else randomChoice r env.individualColors

/-- `PromptGenerator.create_default_config`. -/
def createDefaultConfig : GeneratorConfig :=
  { slots := SLOT_DEFINITIONS.map (fun p => (p.1, {})), color_mode := "none".toList }

/-- `PromptGenerator.randomize_slot`. -/
def randomizeSlot (env : Env) (cfg : GeneratorConfig) (r : Rng) (slotName : Str)
    (includeColor : Bool) (paletteId : Option Str) : GeneratorConfig × Rng :=
  let slots0 := if dHas cfg.slots slotName then cfg.slots
                else dSet cfg.slots slotName {}
  let cfg := { cfg with slots := slots0 }
  match dGet cfg.slots slotName with
  | none => (cfg, r)
  | some slot =>
    if slot.locked then (cfg, r)
    else
      let (item?, r) := sampleSlot env r slotName
      let slot :=
        match item? with
        | some it => { slot with value := some (it.name.getD []), value_id := some it.id }
        | none => { slot with value := none, value_id := none }
      let (slot, r) :=
        if includeColor ∧ slotHasColor slotName then
          if truthyOptStr paletteId ∧ dHas env.palettes (paletteId.getD []) then
            let (c, r) := sampleColorFromPalette env r (paletteId.getD [])
            ({ slot with color := c, color_enabled := true }, r)
          else if cfg.color_mode = randomModeName then
            let (c, r) := sampleRandomColor env r
            ({ slot with color := c, color_enabled := true }, r)
          else (slot, r)
        else (slot, r)
      ({ cfg with slots := dSet cfg.slots slotName slot }, r)

/-- `PromptGenerator._apply_full_body_logic`: one slot-clearing step of the
loop body (`config.slots[name].value = None; ... .value_id = None`). -/
def clearSlotValue (cfg : GeneratorConfig) (slotName : Str) : GeneratorConfig :=
  match dGet cfg.slots slotName with
  | some sc =>
    if ¬ sc.locked then
      { cfg with slots := dSet cfg.slots slotName { sc with value := none, value_id := none } }
    else cfg
  | none => cfg

/-- `PromptGenerator._apply_full_body_logic`. -/
def applyFullBodyLogic (cfg : GeneratorConfig) : GeneratorConfig :=
  match dGet cfg.slots fullBodyName with
  | some fb =>
    if fb.enabled ∧ truthyOptStr fb.value then
      clearSlotValue (clearSlotValue cfg upperBodyName) lowerBodyName
    else cfg
  | none => cfg

/-- `PromptGenerator._apply_lower_body_leg_logic`.  Note: it does not check
`legs.locked`. -/
def applyLowerBodyLegLogic (env : Env) (cfg : GeneratorConfig) : GeneratorConfig :=
  match dGet cfg.slots lowerBodyName, dGet cfg.slots legsName with
  | some lower, some legs =>
    if lower.enabled ∧ truthyOptStr lower.value_id then
      if lowerBodyIdCoversLegs env lower.value_id then
        { cfg with slots := dSet cfg.slots legsName { legs with value := none, value_id := none } }
      else cfg
    else cfg
  | _, _ => cfg

/-- The per-slot loop of `randomize_all` over a given list of slot names. -/
def randomizeLoop (env : Env) (includeColor : Bool) (paletteId : Option Str) :
    List Str → GeneratorConfig × Rng → GeneratorConfig × Rng
  | [], st => st
  | s :: rest, (cfg, r) =>
    let st' :=
      match dGet cfg.slots s with
      | some sc => if sc.locked then (cfg, r) else randomizeSlot env cfg r s includeColor paletteId
      | none => randomizeSlot env cfg r s includeColor paletteId
    randomizeLoop env includeColor paletteId rest st'

/-- `PromptGenerator.randomize_all`. -/
def randomizeAll (env : Env) (cfg : GeneratorConfig) (r : Rng)
    (includeColor : Bool) (paletteId : Option Str) : GeneratorConfig × Rng :=
  let (cfg, r) := randomizeLoop env includeColor paletteId slotDefNames (cfg, r)
  let cfg := if cfg.full_body_mode then applyFullBodyLogic cfg else cfg
  (applyLowerBodyLegLogic env cfg, r)

/-! ## Prompt assembler (nodes.py `_build_prompt_localized`) -/

/-- The assembler's fixed emission order (nodes.py lines 207-217). -/
def slotOrder : List Str :=
  [ "hair_color".toList, "hair_length".toList, "hair_style".toList, "hair_texture".toList
  , "eye_color".toList, "eye_expression_quality".toList, "eye_shape".toList
  , "eye_pupil_state".toList, "eye_state".toList, "eye_accessories".toList
  , "body_type".toList, "height".toList, "skin".toList, "age_appearance".toList
  , "special_features".toList
  , "expression".toList
  , "full_body".toList, "head".toList, "neck".toList, "upper_body".toList
  , "waist".toList, "lower_body".toList
  , "outerwear".toList, "hands".toList, "legs".toList, "feet".toList, "accessory".toList
  , "view_angle".toList, "pose".toList, "gesture".toList
  , "background".toList
  ]

/-- nodes.py lines 220-223: whether the resolved lower-body item covers
the legs. -/
def lowerBodyCoversLegsFlag (env : Env) (cfg : GeneratorConfig) : Bool :=
  match dGet cfg.slots lowerBodyName with
  | some ls => ls.enabled ∧ truthyOptStr ls.value_id ∧ lowerBodyIdCoversLegs env ls.value_id
  | none => false

/-- nodes.py lines 234-237: the full-body slot suppresses upper/lower body. -/
def fullBodyActive (cfg : GeneratorConfig) : Bool :=
  match dGet cfg.slots fullBodyName with
  | some fb => fb.enabled ∧ truthyOptStr fb.value_id
  | none => false

/-- The assembler's skip rules (nodes.py lines 226-241): returns the slot
state when the slot is emitted, `none` when it is suppressed. -/
def slotEmitted (env : Env) (cfg : GeneratorConfig) (slotName : Str) : Option SlotConfig :=
  match dGet cfg.slots slotName with
  | none => none
  | some sc =>
    if ¬ (sc.enabled ∧ truthyOptStr sc.value_id) then none
    else if cfg.full_body_mode ∧ (slotName = upperBodyName ∨ slotName = lowerBodyName)
            ∧ fullBodyActive cfg then none
    else if slotName = legsName ∧ lowerBodyCoversLegsFlag env cfg then none
    else some sc

/-- nodes.py lines 243-248: the display text for an emitted slot. -/
def displayName (env : Env) (slotName : Str) (sc : SlotConfig) (language : Str) : Str :=
  let fallback : Str :=
    if truthyOptStr sc.value then sc.value.getD [] else sc.value_id.getD []
  match resolveSlotValueName env slotName sc.value_id sc.value language with
  | some s => if s = [] then fallback else s
  | none => fallback

/-- nodes.py lines 250-255: optional color text prepended to the name. -/
def segColorText (env : Env) (sc : SlotConfig) (language : Str) : Option Str :=
  if sc.color_enabled ∧ truthyOptStr sc.color then
    match localizeColorToken env sc.color language with
    | some c => if c ≠ [] then some c else some (sc.color.getD [])
    | none => some (sc.color.getD [])
  else none

/-- The full pre-weight segment text for an emitted slot. -/
def segText (env : Env) (slotName : Str) (sc : SlotConfig) (language : Str) : Str :=
  match segColorText env sc language with
  | some c => c ++ ' ' :: displayName env slotName sc language
  | none => displayName env slotName sc language

/-- nodes.py lines 257-259: weight-annotation wrapping of one segment. -/
def renderSegment (t : Str) (w : Q) : Str :=
  if ¬ Q.eqv w qOne then '(' :: (t ++ ':' :: fmt1 w) ++ [')'] else t

/-- The emitted `(slot, rendered segment)` pairs, in assembly order. -/
def buildParts (env : Env) (cfg : GeneratorConfig) (language : Str) : List (Str × Str) :=
  slotOrder.filterMap (fun s =>
    (slotEmitted env cfg s).map (fun sc => (s, renderSegment (segText env s sc language) sc.weight)))

def oneGirl : Str := "1girl".toList
def commaSpace : Str := ", ".toList

/-- `RandomCharacterPromptNode._build_prompt_localized`. -/
def buildPromptLocalized (env : Env) (cfg : GeneratorConfig) (language : Str) : Str :=
  joinSep commaSpace (oneGirl :: (buildParts env cfg language).map Prod.snd)

/-! ## Reverse parser (web/routes/parser.py) -/

/-- `ColorTrie`: nested char-keyed maps with an optional terminal payload
(the `"$"` entry holding the canonical color). -/
inductive Trie where
  | node : Option Str → List (Char × Trie) → Trie

def Trie.term : Trie → Option Str
  | .node t _ => t

def Trie.children : Trie → List (Char × Trie)
  | .node _ ch => ch

def Trie.empty : Trie := .node none []

/-- `ColorTrie.insert`, with the terminal value precomputed
(`canonical or word`). -/
def Trie.insertWith : Trie → Str → Str → Trie
  | .node _ ch, [], v => .node (some v) ch
  | .node t ch, c :: rest, v =>
    let sub := match dGet ch c with
      | some s => s
      | none => Trie.empty
    .node t (dSet ch c (Trie.insertWith sub rest v))

/-- `ColorTrie.insert(word, canonical)`: walks `word.lower()` and stores
`canonical or word` at the end. -/
def Trie.insertWord (t : Trie) (word canonical : Str) : Trie :=
  t.insertWith (lowerStr word) (if canonical = [] then word else canonical)

/-- The recursion of `ColorTrie.find_prefix`: walk `text` (lowering each
character), remembering the last terminal node that is immediately
followed by a space in the text; `i` is the index of the next character. -/
def Trie.findPrefixAux : Trie → Str → Nat → Option (Str × Nat) → Option (Str × Nat)
  | _, [], _, last => last
  | .node _ ch, c :: rest, i, last =>
    match dGet ch c.toLower with
    | none => last
    | some sub =>
      let last' :=
        match sub.term with
        | some canon => if rest.head? = some ' ' then some (canon, i + 2) else last
        | none => last
      Trie.findPrefixAux sub rest (i + 1) last'

/-- `ColorTrie.find_prefix`: longest color prefix whose match is followed
by a space; returns the canonical color and the length to skip (through
the space). -/
def Trie.findPrefixM (t : Trie) (text : Str) : Option (Str × Nat) :=
  Trie.findPrefixAux t text 0 none

/-- Whether `word` (already lowercased) is stored in the trie, i.e. the
walk reaches a node carrying a `"$"` terminal. -/
def Trie.containsWord : Trie → Str → Bool
  | t, [] => (Trie.term t).isSome
  | t, c :: rest =>
    match dGet (Trie.children t) c with
    | some sub => Trie.containsWord sub rest
    | none => false

/-- The cached indices of `PromptParser`. -/
structure PromptParser where
  exactIndex : List (Str × List (Str × Str))
  normalizedIndex : List (Str × List (Str × Str))
  wordIndex : List (Str × List (Str × Str × Str))
  colorTrie : Trie
  colorCanonical : List (Str × Str)

/-- `PromptParser._normalize`: lowercase and delete whitespace, hyphens
and underscores (`re.sub(r'[\s\-_]+', '', text.lower())`). -/
def normalizeText (s : Str) : Str :=
  (lowerStr s).filter (fun c => ¬ (isPySpace c ∨ c = '-' ∨ c = '_'))

/-- Append a candidate to an index entry (`setdefault(key, []).append(v)`). -/
def indexAdd {β : Type} (idx : List (Str × List β)) (k : Str) (v : β) :
    List (Str × List β) :=
  match dGet idx k with
  | some l => dSet idx k (l ++ [v])
  | none => dSet idx k [v]

/-- `PromptParser._index_name`. -/
def indexName (P : PromptParser) (name : Str) (slotName itemId : Str) : PromptParser :=
  let nameLower := pyStrip (lowerStr name)
  if nameLower = [] then P
  else
    let P := { P with exactIndex := indexAdd P.exactIndex nameLower (slotName, itemId) }
    let normalized := normalizeText nameLower
    let P :=
      if normalized ≠ nameLower then
        { P with normalizedIndex := indexAdd P.normalizedIndex normalized (slotName, itemId) }
      else P
    let words := pySplitWs nameLower
    if words.length > 1 then
      let widx := words.foldl (fun idx w =>
        if w.length > 2 then indexAdd idx w (slotName, itemId, nameLower) else idx) P.wordIndex
      { P with wordIndex := widx }
    else P

/-- The per-item body of `PromptParser._build_indices`. -/
def indexItem (P : PromptParser) (slotName : Str) (it : Item) : PromptParser :=
  if it.id = [] then P
  else
    let name := it.name.getD []
    let P := if name ≠ [] then indexName P name slotName it.id else P
    it.nameI18n.foldl (fun P p =>
      if p.2 ≠ [] ∧ p.2 ≠ name then indexName P p.2 slotName it.id else P) P

/-- `PromptParser._build_indices` followed by the color-index loops. -/
def buildParserIndices (env : Env) : PromptParser :=
  let P : PromptParser := ⟨[], [], [], Trie.empty, []⟩
  let P := SLOT_DEFINITIONS.foldl (fun P sd =>
    (getSlotOptions env sd.1).foldl (fun P it => indexItem P sd.1 it) P) P
  let P := env.individualColors.foldl (fun P c =>
    { P with colorTrie := P.colorTrie.insertWord c c,
             colorCanonical := dSet P.colorCanonical (lowerStr c) c }) P
  env.colorI18n.foldl (fun P p =>
    p.2.foldl (fun P q =>
      if q.2 ≠ [] then
        { P with colorTrie := P.colorTrie.insertWord q.2 p.1,
                 colorCanonical := dSet P.colorCanonical (lowerStr q.2) p.1 }
      else P) P) P

/-- A parsed token: text plus prompt weight. -/
structure PToken where
  text : Str
  weight : Q
deriving DecidableEq

/-- The per-part body of `PromptParser._tokenize` (strip, drop empties,
unwrap `(text:weight)`). -/
def tokenizePart (raw : Str) : Option PToken :=
  let part := pyStrip raw
  if part = [] then none
  else
    if part.head? = some '(' ∧ part.getLast? = some ')' ∧ part.contains ':' then
      let inner := (part.drop 1).dropLast
      match rfindChar ':' inner with
      | some pos =>
        if pos > 0 then
          match pyFloat? (inner.drop (pos + 1)) with
          | some w => some ⟨inner.take pos, w⟩
          | none => some ⟨part, qOne⟩
        else some ⟨part, qOne⟩
      | none => some ⟨part, qOne⟩
    else some ⟨part, qOne⟩

/-- `PromptParser._tokenize`. -/
def tokenize (prompt : Str) : List PToken :=
  (splitOnChar ',' prompt).filterMap tokenizePart

/-- `PromptParser._extract_color`. -/
def extractColor (P : PromptParser) (text : Str) : Option Str × Str :=
  match P.colorTrie.findPrefixM text with
  | some (color, n) => (some color, pyStrip (text.drop n))
  | none => (none, text)

/-- `PromptParser._match_exact`. -/
def matchExact (P : PromptParser) (text : Str) : Option (List (Str × Str)) :=
  dGet P.exactIndex (lowerStr text)

/-- `PromptParser._match_normalized`. -/
def matchNormalized (P : PromptParser) (text : Str) : Option (List (Str × Str)) :=
  dGet P.normalizedIndex (normalizeText text)

/-- Insertion-ordered deduplication: the canonical contents of the Python
set built in `_match_words`. -/
def dedupPairs : List (Str × Str) → List (Str × Str)
  | [] => []
  | p :: rest => p :: (dedupPairs rest).filter (fun q => q ≠ p)

/-- `PromptParser._match_words`.  `setEnum` models the unspecified
iteration order of `list(candidates)` over a CPython set: it receives the
set's elements (insertion-deduplicated) and returns them in some order. -/
def matchWords (P : PromptParser) (setEnum : List (Str × Str) → List (Str × Str))
    (text : Str) : Option (List (Str × Str)) :=
  let words := pySplitWs (lowerStr text)
  let candidates : Option (List (Str × Str)) :=
    words.foldl (fun cand w =>
      if w.length ≤ 2 then cand
      else
        let wm := ((dGet P.wordIndex w).getD []).map (fun t => (t.1, t.2.1))
        match cand with
        | none => some (dedupPairs wm)
        | some cs => some (cs.filter (fun q => q ∈ wm))) none
  match candidates with
  | some (c :: cs) => some (setEnum (c :: cs))
  | _ => none

/-- `PromptParser._match_fuzzy`, parameterized by the string-similarity
`ratio` function (difflib's `SequenceMatcher.ratio`). -/
def matchFuzzy (P : PromptParser) (ratio : Str → Str → Q) (text : Str)
    (threshold : Q := mkQ 85 100) : Option (List (Str × Str) × Q) :=
  let textLower := lowerStr text
  let best := P.exactIndex.foldl
    (fun (acc : Option (List (Str × Str)) × Q) p =>
      let score := ratio textLower p.1
      if Q.lt acc.2 score ∧ Q.le threshold score then (some p.2, score) else acc)
    (none, qZero)
  match best with
  | (some (m :: ms), s) => some (m :: ms, s)
  | _ => none

/-- The matching cascade of `PromptParser.parse` (lines 263-284). -/
def cascade (P : PromptParser) (ratio : Str → Str → Q)
    (setEnum : List (Str × Str) → List (Str × Str)) (useFuzzy : Bool)
    (itemText : Str) : Option (List (Str × Str)) × Q :=
  let m := matchExact P itemText
  let c : Q := qOne
  let (m, c) := if truthyL m then (m, c) else (matchNormalized P itemText, mkQ 95 100)
  let (m, c) := if truthyL m then (m, c) else (matchWords P setEnum itemText, mkQ 85 100)
  if truthyL m then (m, c)
  else if useFuzzy ∧ itemText.length > 3 then
    match matchFuzzy P ratio itemText with
    | some (l, s) => (some l, s)
    | none => (m, c)
  else (m, c)

/-- One entry of the parse result's `slots` mapping. -/
structure ParseSlot where
  value_id : Str
  color : Option Str
  weight : Q
  enabled : Bool
  confidence : Q
deriving DecidableEq

structure ParseState where
  results : List (Str × ParseSlot)
  unmatched : List Str
  matchedCount : Nat
deriving DecidableEq

def skipTokensList : List Str :=
  ["1girl".toList, "1boy".toList, "girl".toList, "boy".toList, "solo".toList]

/-- The assignment loop of `PromptParser.parse` (lines 286-308): assign to
the first candidate slot not already filled, else record as unmatched. -/
def assignFirst (st : ParseState) (text : Str) (weight : Q) (color : Option Str)
    (conf : Q) : List (Str × Str) → ParseState
  | [] => { st with unmatched := st.unmatched ++ [text] }
  | (slotName, itemId) :: rest =>
    if ¬ dHas st.results slotName then
      { st with
        results := dSet st.results slotName
          ⟨itemId, (if slotHasColor slotName then color else none), weight, true, conf⟩,
        matchedCount := st.matchedCount + 1 }
    else assignFirst st text weight color conf rest

/-- The per-token body of `PromptParser.parse`. -/
def parseStep (P : PromptParser) (ratio : Str → Str → Q)
    (setEnum : List (Str × Str) → List (Str × Str)) (useFuzzy : Bool)
    (st : ParseState) (tok : PToken) : ParseState :=
  if lowerStr tok.text ∈ skipTokensList then st
  else
    let (color, itemText) := extractColor P tok.text
    let (m, conf) := cascade P ratio setEnum useFuzzy itemText
    if truthyL m then assignFirst st tok.text tok.weight color conf (m.getD [])
    else { st with unmatched := st.unmatched ++ [tok.text] }

/-- The full parse result (`PromptParser.parse` return value). -/
structure ParseResult where
  slots : List (Str × ParseSlot)
  unmatched : List Str
  matchedCount : Nat
  totalTokens : Nat
  confidence : Q
deriving DecidableEq

/-- `PromptParser.parse`. -/
def parse (P : PromptParser) (ratio : Str → Str → Q)
    (setEnum : List (Str × Str) → List (Str × Str)) (prompt : Str)
    (useFuzzy : Bool) : ParseResult :=
  let st := (tokenize prompt).foldl (parseStep P ratio setEnum useFuzzy) ⟨[], [], 0⟩
  let total := st.matchedCount + st.unmatched.length
  let overall : Q := if total > 0 then mkQ (st.matchedCount : Int) (total : Int) else qZero
  ⟨st.results, st.unmatched, st.matchedCount, total, round3 overall⟩

/-! ## Generation entry point (nodes.py `generate`) -/

/-- The inputs of `RandomCharacterPromptNode.generate` other than the seed;
the 31 per-slot lock strings are collected into the `locks` association
list, in the order the code builds its `locks` dict. -/
structure GenInputs where
  language : Str
  palette : Str
  fullBodyMode : Bool
  upperBodyMode : Bool
  prefixText : Str
  locks : List (Str × Str)
deriving DecidableEq

/-- `random.seed(seed)`: the global stream is replaced by a function of the
seed alone; `mt` models the PRNG family (Mersenne Twister in CPython). -/
def pySeed (mt : Nat → Nat → Nat) (seed : Nat) : Rng := ⟨mt seed, 0⟩

def upperBodyModeSlots : List Str :=
  ["waist".toList, "lower_body".toList, "full_body".toList,
   "legs".toList, "feet".toList]

/-- nodes.py lines 140-143: upper-body mode disables the lower slots. -/
def applyUpperBodyMode (cfg : GeneratorConfig) : GeneratorConfig :=
  upperBodyModeSlots.foldl (fun cfg s =>
    match dGet cfg.slots s with
    | some sc => { cfg with slots := dSet cfg.slots s { sc with enabled := false } }
    | none => cfg) cfg

/-- nodes.py lines 187-191: apply the lock overrides. -/
def applyLocks (cfg : GeneratorConfig) (locks : List (Str × Str)) : GeneratorConfig :=
  locks.foldl (fun cfg p =>
    if pyStrip p.2 ≠ [] then
      match dGet cfg.slots p.1 with
      | some sc =>
        let sc' := { sc with value := some (pyStrip p.2), value_id := some (pyStrip p.2) }
        { cfg with slots := dSet cfg.slots p.1 sc' }
      | none => cfg
    else cfg) cfg

/-- `RandomCharacterPromptNode.generate`: `g` is the state of the global
`random` module before the call; `random.seed(seed)` replaces it. -/
def generate (env : Env) (mt : Nat → Nat → Nat) (_g : Rng) (seed : Nat)
    (inp : GenInputs) : Str :=
  let r := pySeed mt seed
  let cfg := { createDefaultConfig with full_body_mode := inp.fullBodyMode }
  let paletteId : Option Str :=
    if inp.palette ≠ ("none".toList) then some inp.palette else none
  let includeColor := paletteId.isSome
  let (cfg, _) := randomizeAll env cfg r includeColor paletteId
  let cfg := if inp.upperBodyMode then applyUpperBodyMode cfg else cfg
  let cfg := applyLocks cfg inp.locks
  let prompt := buildPromptLocalized env cfg inp.language
  if pyStrip inp.prefixText ≠ [] then pyStrip inp.prefixText ++ commaSpace ++ prompt
  else prompt

/-! ## Helper lemmas: association-list dictionaries -/

theorem dGet_dSet_self {κ α : Type} [DecidableEq κ] (d : List (κ × α)) (k : κ) (v : α) :
    dGet (dSet d k v) k = some v := by
  induction d with
  | nil => simp [dGet, dSet]
  | cons hd tl ih =>
    obtain ⟨a, b⟩ := hd
    by_cases h : a = k
    · simp [dGet, dSet, h]
    · simp [dGet, dSet, h, ih]

theorem dGet_dSet_ne {κ α : Type} [DecidableEq κ] (d : List (κ × α)) (k k' : κ) (v : α)
    (h : k ≠ k') : dGet (dSet d k v) k' = dGet d k' := by
  induction d with
  | nil => simp [dGet, dSet, h]
  | cons hd tl ih =>
    obtain ⟨a, b⟩ := hd
    by_cases h1 : a = k
    · subst h1; simp [dGet, dSet, h]
    · by_cases h2 : a = k'
      · subst h2; simp [dGet, dSet, Ne.symm h]
      · simp [dGet, dSet, h1, h2, ih]

theorem dHas_dSet {κ α : Type} [DecidableEq κ] (d : List (κ × α)) (k k' : κ) (v : α) :
    dHas (dSet d k v) k' = (if k = k' then true else dHas d k') := by
  by_cases h : k = k'
  · subst h; simp [dHas, dGet_dSet_self]
  · simp [dHas, dGet_dSet_ne d k k' v h, h]

theorem dSet_dSet {κ α : Type} [DecidableEq κ] (d : List (κ × α)) (k : κ) (v v' : α) :
    dSet (dSet d k v) k v' = dSet d k v' := by
  induction d with
  | nil => simp [dSet]
  | cons hd tl ih =>
    obtain ⟨a, b⟩ := hd
    by_cases h : a = k
    · simp [dSet, h]
    · simp [dSet, h, ih]

/-! ## Helper lemmas: the randomization engine -/

theorem randomizeSlot_locked (env : Env) (cfg : GeneratorConfig) (r : Rng) (s : Str)
    (ic : Bool) (pid : Option Str) (sc : SlotConfig)
    (h : dGet cfg.slots s = some sc) (hl : sc.locked = true) :
    randomizeSlot env cfg r s ic pid = (cfg, r) := by
  have hh : dHas cfg.slots s = true := by simp [dHas, h]
  simp [randomizeSlot, hh, h, hl]

theorem randomizeSlot_shape (env : Env) (cfg : GeneratorConfig) (r : Rng) (s : Str)
    (ic : Bool) (pid : Option Str) :
    (randomizeSlot env cfg r s ic pid).1 = cfg ∨
      ∃ sl, (randomizeSlot env cfg r s ic pid).1 = { cfg with slots := dSet cfg.slots s sl } := by
  cases h0 : dGet cfg.slots s with
  | none =>
    have hh : dHas cfg.slots s = false := by simp [dHas, h0]
    right
    simp only [randomizeSlot, hh, Bool.false_eq_true, if_false, dGet_dSet_self]
    repeat' split
    all_goals exact ⟨_, by rw [dSet_dSet]⟩
  | some sc =>
    have hh : dHas cfg.slots s = true := by simp [dHas, h0]
    by_cases hl : sc.locked
    · left; simp [randomizeSlot, hh, h0, hl]
    · have hl' : sc.locked = false := by simpa using hl
      right
      simp only [randomizeSlot, hh, if_true, h0, hl', Bool.false_eq_true, if_false]
      repeat' split
      all_goals exact ⟨_, rfl⟩

theorem randomizeSlot_ne (env : Env) (cfg : GeneratorConfig) (r : Rng) (s s' : Str)
    (ic : Bool) (pid : Option Str) (h : s ≠ s') :
    dGet (randomizeSlot env cfg r s ic pid).1.slots s' = dGet cfg.slots s' := by
  rcases randomizeSlot_shape env cfg r s ic pid with hs | ⟨sl, hs⟩
  · rw [hs]
  · rw [hs]; exact dGet_dSet_ne _ _ _ _ h

theorem randomizeSlot_mode (env : Env) (cfg : GeneratorConfig) (r : Rng) (s : Str)
    (ic : Bool) (pid : Option Str) :
    (randomizeSlot env cfg r s ic pid).1.full_body_mode = cfg.full_body_mode := by
  rcases randomizeSlot_shape env cfg r s ic pid with hs | ⟨sl, hs⟩ <;> rw [hs]

theorem randomizeLoop_locked (env : Env) (ic : Bool) (pid : Option Str) :
    ∀ (names : List Str) (st : GeneratorConfig × Rng) (s : Str) (sc : SlotConfig),
      dGet st.1.slots s = some sc → sc.locked = true →
      dGet (randomizeLoop env ic pid names st).1.slots s = some sc := by
  intro names
  induction names with
  | nil => intro st s sc h _; exact h
  | cons t rest ih =>
    intro st s sc h hl
    obtain ⟨cfg, r⟩ := st
    simp only [randomizeLoop]
    by_cases hts : t = s
    · subst hts
      simp only [h, hl, if_true]
      exact ih (cfg, r) t sc h hl
    · cases h0 : dGet cfg.slots t with
      | none =>
        simp only [h0]
        exact ih _ s sc (by rw [randomizeSlot_ne env cfg r t s ic pid hts]; exact h) hl
      | some tc =>
        by_cases htl : tc.locked
        · simp only [h0, htl, if_true]
          exact ih (cfg, r) s sc h hl
        · have htl' : tc.locked = false := by simpa using htl
          simp only [h0, htl', Bool.false_eq_true, if_false]
          exact ih _ s sc (by rw [randomizeSlot_ne env cfg r t s ic pid hts]; exact h) hl

theorem randomizeLoop_mode (env : Env) (ic : Bool) (pid : Option Str) :
    ∀ (names : List Str) (st : GeneratorConfig × Rng),
      (randomizeLoop env ic pid names st).1.full_body_mode = st.1.full_body_mode := by
  intro names
  induction names with
  | nil => intro st; rfl
  | cons t rest ih =>
    intro st
    obtain ⟨cfg, r⟩ := st
    simp only [randomizeLoop]
    cases h0 : dGet cfg.slots t with
    | none => rw [ih]; exact randomizeSlot_mode env cfg r t ic pid
    | some tc =>
      by_cases htl : tc.locked
      · simp only [h0, htl, if_true]; exact ih (cfg, r)
      · have htl' : tc.locked = false := by simpa using htl
        simp only [h0, htl', Bool.false_eq_true, if_false]
        rw [ih]; exact randomizeSlot_mode env cfg r t ic pid

theorem clearSlotValue_ne (cfg : GeneratorConfig) (s s' : Str) (h : s ≠ s') :
    dGet (clearSlotValue cfg s).slots s' = dGet cfg.slots s' := by
  unfold clearSlotValue
  cases h0 : dGet cfg.slots s with
  | none => rfl
  | some sc =>
    by_cases hl : sc.locked
    · simp [hl]
    · have hl' : sc.locked = false := by simpa using hl
      simp only [hl', Bool.false_eq_true, not_false_eq_true, if_true]
      exact dGet_dSet_ne _ _ _ _ h

theorem clearSlotValue_self (cfg : GeneratorConfig) (s : Str) (sc : SlotConfig)
    (h : dGet cfg.slots s = some sc) (hl : sc.locked = false) :
    dGet (clearSlotValue cfg s).slots s =
      some { sc with value := none, value_id := none } := by
  unfold clearSlotValue
  simp only [h, hl, Bool.false_eq_true, not_false_eq_true, if_true]
  exact dGet_dSet_self _ _ _

theorem clearSlotValue_locked (cfg : GeneratorConfig) (s : Str) (sc : SlotConfig)
    (h : dGet cfg.slots s = some sc) (hl : sc.locked = true) :
    clearSlotValue cfg s = cfg := by
  unfold clearSlotValue
  simp [h, hl]

theorem applyLowerBodyLeg_ne (env : Env) (cfg : GeneratorConfig) (s : Str)
    (h : s ≠ legsName) :
    dGet (applyLowerBodyLegLogic env cfg).slots s = dGet cfg.slots s := by
  unfold applyLowerBodyLegLogic
  cases h1 : dGet cfg.slots lowerBodyName with
  | none => rfl
  | some lower =>
    cases h2 : dGet cfg.slots legsName with
    | none => rfl
    | some legs =>
      by_cases h3 : lower.enabled = true ∧ truthyOptStr lower.value_id = true
      · by_cases h4 : lowerBodyIdCoversLegs env lower.value_id = true
        · simp only [h3, h4, and_self, if_true]
          exact dGet_dSet_ne _ _ _ _ (fun e => h e.symm)
        · simp [h3, h4]
      · simp [h3]

theorem clearSlotValue_none (cfg : GeneratorConfig) (s : Str)
    (h : dGet cfg.slots s = none) : clearSlotValue cfg s = cfg := by
  unfold clearSlotValue
  simp [h]

theorem applyFullBody_ne (cfg : GeneratorConfig) (s : Str)
    (h1 : s ≠ upperBodyName) (h2 : s ≠ lowerBodyName) :
    dGet (applyFullBodyLogic cfg).slots s = dGet cfg.slots s := by
  unfold applyFullBodyLogic
  cases h0 : dGet cfg.slots fullBodyName with
  | none => rfl
  | some fb =>
    by_cases h3 : fb.enabled = true ∧ truthyOptStr fb.value = true
    · simp only [h3, and_self, if_true]
      rw [clearSlotValue_ne _ _ _ (fun e => h2 e.symm),
          clearSlotValue_ne _ _ _ (fun e => h1 e.symm)]
    · simp [h3]

/-! ## C2: locked slots and randomization -/

def rng0 : Rng := ⟨fun _ => 0, 0⟩

def itemPants : Item :=
  ⟨"pants_long".toList, some ("long pants".toList), [], true⟩

def envC2 : Env :=
  { slotOptions := [(lowerBodyName, [itemPants])]
  , catalogItems := [("clothing".toList, [itemPants])]
  , individualColors := [], colorI18n := [], palettes := [] }

def cfgC2 : GeneratorConfig :=
  { slots := [ (legsName, { locked := true, value := some ("thighhighs".toList),
                            value_id := some ("th1".toList) })
             , (lowerBodyName, {}) ]
  , color_mode := "none".toList, full_body_mode := true }

/-- C2: evaluation at the failing input.  The `legs` slot is locked and
holds a value; `lower_body` randomizes to an item with `covers_legs`;
`randomize_all`'s leg-coverage pass then clears the locked `legs` slot,
contradicting the claim (and the `locked` field's own doc comment). -/
theorem c2_code_bug_eval :
    (dGet cfgC2.slots legsName).map (fun sc => (sc.locked, sc.value_id)) =
        some (true, some ("th1".toList)) ∧
    (dGet (randomizeAll envC2 cfgC2 rng0 false none).1.slots legsName).map
        (fun sc => (sc.locked, sc.value, sc.value_id)) = some (true, none, none) := by
  constructor
  · decide
  · decide

/-! ## C3: the full-body override -/

def itemGown : Item := ⟨"gown1".toList, some ("gown".toList), [], false⟩
def itemShirt : Item := ⟨"shirt1".toList, some ("shirt".toList), [], false⟩

def envC3 : Env :=
  { slotOptions := [(fullBodyName, [itemGown]), (upperBodyName, [itemShirt])]
  , catalogItems := [("clothing".toList, [itemGown, itemShirt])]
  , individualColors := [], colorI18n := [], palettes := [] }

/-- A configuration whose `full_body` slot is disabled (but unlocked). -/
def cfgC3 : GeneratorConfig :=
  { slots := [(fullBodyName, { enabled := false })]
  , color_mode := "none".toList, full_body_mode := true }

/-- C3 counterexample: after `randomize_all` with `full_body_mode = true`,
the `full_body` slot holds a non-null value, the `upper_body` slot is not
locked, and yet `upper_body` keeps a non-null value — because the code
additionally requires the `full_body` slot to be *enabled* before
clearing, which the claim omits. -/
theorem c3_counterexample :
    (dGet (randomizeAll envC3 cfgC3 rng0 false none).1.slots fullBodyName).map
        (fun sc => sc.value) = some (some ("gown".toList)) ∧
    (dGet (randomizeAll envC3 cfgC3 rng0 false none).1.slots upperBodyName).map
        (fun sc => (sc.locked, sc.value)) = some (false, some ("shirt".toList)) := by
  constructor
  · decide
  · decide

/-- C3 (amended): after `randomize_all` on a configuration with
`full_body_mode = true`, if the `full_body` slot is *enabled* and holds a
non-null, non-empty value, then the `upper_body` and `lower_body` slots'
values and value-ids are null unless those slots are locked. -/
theorem c3_amended (env : Env) (cfg : GeneratorConfig) (r : Rng) (ic : Bool)
    (pid : Option Str) (hmode : cfg.full_body_mode = true) (fb : SlotConfig)
    (hfb : dGet (randomizeAll env cfg r ic pid).1.slots fullBodyName = some fb)
    (hen : fb.enabled = true) (hval : truthyOptStr fb.value = true)
    (s : Str) (hs : s = upperBodyName ∨ s = lowerBodyName) (sc : SlotConfig)
    (hsc : dGet (randomizeAll env cfg r ic pid).1.slots s = some sc)
    (hlock : sc.locked = false) :
    sc.value = none ∧ sc.value_id = none := by
  rcases hp : randomizeLoop env ic pid slotDefNames (cfg, r) with ⟨cfg1, r1⟩
  have hm1 : cfg1.full_body_mode = true := by
    have := randomizeLoop_mode env ic pid slotDefNames (cfg, r)
    rw [hp] at this; simpa [hmode] using this
  have hres : (randomizeAll env cfg r ic pid).1 =
      applyLowerBodyLegLogic env (applyFullBodyLogic cfg1) := by
    unfold randomizeAll
    rw [hp]
    simp [hm1]
  rw [hres] at hfb hsc
  have hsl : s ≠ legsName := by
    rcases hs with h | h <;> subst h <;> decide
  rw [applyLowerBodyLeg_ne env _ s hsl] at hsc
  rw [applyLowerBodyLeg_ne env _ fullBodyName (by decide)] at hfb
  rw [applyFullBody_ne _ fullBodyName (by decide) (by decide)] at hfb
  -- the full-body pass fires
  have hpass : applyFullBodyLogic cfg1 =
      clearSlotValue (clearSlotValue cfg1 upperBodyName) lowerBodyName := by
    unfold applyFullBodyLogic
    simp [hfb, hen, hval]
  rw [hpass] at hsc
  rcases hs with h | h
  · subst h
    rw [clearSlotValue_ne _ _ _ (by decide)] at hsc
    cases h0 : dGet cfg1.slots upperBodyName with
    | none => rw [clearSlotValue_none _ _ h0, h0] at hsc; cases hsc
    | some u =>
      by_cases hul : u.locked
      · rw [clearSlotValue_locked _ _ _ h0 hul, h0] at hsc
        cases hsc
        rw [hul] at hlock; cases hlock
      · have hul' : u.locked = false := by simpa using hul
        rw [clearSlotValue_self _ _ _ h0 hul'] at hsc
        cases hsc
        exact ⟨rfl, rfl⟩
  · subst h
    cases h0 : dGet (clearSlotValue cfg1 upperBodyName).slots lowerBodyName with
    | none => rw [clearSlotValue_none _ _ h0, h0] at hsc; cases hsc
    | some u =>
      by_cases hul : u.locked
      · rw [clearSlotValue_locked _ _ _ h0 hul, h0] at hsc
        cases hsc
        rw [hul] at hlock; cases hlock
      · have hul' : u.locked = false := by simpa using hul
        rw [clearSlotValue_self _ _ _ h0 hul'] at hsc
        cases hsc
        exact ⟨rfl, rfl⟩

/-- C3 amended witness: a concrete run where the amended claim's
hypotheses hold and the conclusion is produced by the theorem. -/
theorem c3_amended_witness :
    createDefaultConfig.full_body_mode = true ∧
    dGet (randomizeAll envC3 createDefaultConfig rng0 false none).1.slots fullBodyName =
      some ⟨true, false, some ("gown".toList), some ("gown1".toList), none, false, qOne⟩ ∧
    (({} : SlotConfig).value = none ∧ ({} : SlotConfig).value_id = none) :=
  ⟨by decide, by decide,
    c3_amended envC3 createDefaultConfig rng0 false none (by decide)
      ⟨true, false, some ("gown".toList), some ("gown1".toList), none, false, qOne⟩
      (by decide) (by decide) (by decide) upperBodyName (Or.inl rfl) {} (by decide)
      (by decide)⟩

/-! ## C4: determinism in the seed -/

/-- C4: `generate` re-seeds the global random source from the
caller-supplied seed (`random.seed(seed)`), so its output does not depend
on the random-module state `g` before the call: two runs with the same
seed, catalogs and inputs produce the identical prompt string. -/
theorem c4_determinism (env : Env) (mt : Nat → Nat → Nat) (g1 g2 : Rng) (seed : Nat)
    (inp : GenInputs) : generate env mt g1 seed inp = generate env mt g2 seed inp := rfl

/-! ## C9: weight serialization -/

/-- C9: in the assembled prompt, a segment with weight equal to 1.0 is
emitted bare, any other weight wraps it as `(text:weight)` with the weight
formatted to one decimal place (e.g. weight 1.3 yields `(text:1.3)`); and
every emitted segment of `buildParts` is produced by exactly this rule. -/
theorem c9_weight_serialization :
    (∀ (t : Str) (w : Q),
      (Q.eqv w qOne = true → renderSegment t w = t) ∧
      (Q.eqv w qOne = false →
        renderSegment t w = '(' :: (t ++ ':' :: fmt1 w) ++ [')']) ∧
      renderSegment t (mkQ 13 10) = '(' :: (t ++ ':' :: ("1.3".toList)) ++ [')']) ∧
    (∀ env cfg lang s seg, (s, seg) ∈ buildParts env cfg lang →
      ∃ sc, slotEmitted env cfg s = some sc ∧
        seg = renderSegment (segText env s sc lang) sc.weight) := by
  constructor
  · intro t w
    refine ⟨fun h => ?_, fun h => ?_, ?_⟩
    · unfold renderSegment; rw [h]; simp
    · unfold renderSegment; rw [h]; simp
    · have h13 : Q.eqv (mkQ 13 10) qOne = false := by decide
      have hf : fmt1 (mkQ 13 10) = "1.3".toList := by decide
      unfold renderSegment; rw [h13, hf]; simp
  · intro env cfg lang s seg hmem
    simp only [buildParts, List.mem_filterMap] at hmem
    obtain ⟨x, _, hx⟩ := hmem
    cases he : slotEmitted env cfg x with
    | none => rw [he] at hx; cases hx
    | some sc =>
      rw [he] at hx
      simp only [Option.map_some', Option.some.injEq, Prod.mk.injEq] at hx
      obtain ⟨hxs, hseg⟩ := hx
      subst hxs
      exact ⟨sc, he, hseg.symm⟩

/-- C9 witness: both weight branches at concrete inputs. -/
theorem c9_weight_serialization_witness :
    Q.eqv qOne qOne = true ∧ renderSegment ("shirt".toList) qOne = "shirt".toList ∧
    Q.eqv (mkQ 13 10) qOne = false ∧
    renderSegment ("dress".toList) (mkQ 13 10) = "(dress:1.3)".toList :=
  ⟨by decide,
   (c9_weight_serialization.1 ("shirt".toList) qOne).1 (by decide),
   by decide,
   by
     have h := (c9_weight_serialization.1 ("dress".toList) (mkQ 13 10)).2.1 (by decide)
     rw [h]
     decide⟩

/-! ## C5: the matching cascade -/

theorem matchFuzzy_fold_good (step : Option (List (Str × Str)) × Q → Str × List (Str × Str) → Option (List (Str × Str)) × Q)
    (th : Q)
    (hstep : ∀ acc p, step acc p = acc ∨ ∃ l sc, step acc p = (some l, sc) ∧ Q.le th sc = true) :
    ∀ (entries : List (Str × List (Str × Str))) (acc : Option (List (Str × Str)) × Q),
      (acc.1 = none ∨ Q.le th acc.2 = true) →
      ((entries.foldl step acc).1 = none ∨ Q.le th (entries.foldl step acc).2 = true) := by
  intro entries
  induction entries with
  | nil => intro acc h; exact h
  | cons e rest ih =>
    intro acc h
    simp only [List.foldl_cons]
    apply ih
    rcases hstep acc e with he | ⟨l, sc, he, hle⟩
    · rw [he]; exact h
    · rw [he]; right; exact hle

theorem matchFuzzy_threshold (P : PromptParser) (ratio : Str → Str → Q) (t : Str)
    (th : Q) (l : List (Str × Str)) (s : Q)
    (h : matchFuzzy P ratio t th = some (l, s)) : Q.le th s = true := by
  simp only [matchFuzzy] at h
  have hg := matchFuzzy_fold_good
    (fun acc p =>
      if Q.lt acc.2 (ratio (lowerStr t) p.1) = true ∧ Q.le th (ratio (lowerStr t) p.1) = true
      then (some p.2, ratio (lowerStr t) p.1) else acc) th
    (by
      intro acc p
      by_cases hc : Q.lt acc.2 (ratio (lowerStr t) p.1) = true ∧
          Q.le th (ratio (lowerStr t) p.1) = true
      · right; exact ⟨p.2, ratio (lowerStr t) p.1, by simp [hc], hc.2⟩
      · left; simp [hc])
    P.exactIndex (none, qZero) (Or.inl rfl)
  rcases hfold : (P.exactIndex.foldl
      (fun acc p =>
        if Q.lt acc.2 (ratio (lowerStr t) p.1) = true ∧ Q.le th (ratio (lowerStr t) p.1) = true
        then (some p.2, ratio (lowerStr t) p.1) else acc) (none, qZero)) with ⟨bm, bs⟩
  rw [hfold] at hg h
  cases bm with
  | none => cases h
  | some lst =>
    cases lst with
    | nil => cases h
    | cons a as =>
      simp only [Option.some.injEq, Prod.mk.injEq] at h ⊢
      rcases hg with hg | hg
      · cases hg
      · obtain ⟨h1, h2⟩ := h
        subst h2
        exact hg

/-- C5: the cascade tries exact, normalized, word-intersection, then
fuzzy, and the first strategy with a nonempty result wins, with
confidence 1.0, 0.95, 0.85, or the computed similarity ratio; the fuzzy
strategy runs only when the prior strategies failed, fuzzy matching is
enabled, and the (color-stripped) token text exceeds 3 characters, and it
only accepts a best match whose ratio meets the 0.85 threshold. -/
theorem c5_cascade (P : PromptParser) (ratio : Str → Str → Q)
    (setEnum : List (Str × Str) → List (Str × Str)) (useFuzzy : Bool) (t : Str) :
    (cascade P ratio setEnum useFuzzy t =
      if truthyL (matchExact P t) then (matchExact P t, qOne)
      else if truthyL (matchNormalized P t) then (matchNormalized P t, mkQ 95 100)
      else if truthyL (matchWords P setEnum t) then (matchWords P setEnum t, mkQ 85 100)
      else if useFuzzy = true ∧ t.length > 3 then
        match matchFuzzy P ratio t with
        | some (l, s) => (some l, s)
        | none => (matchWords P setEnum t, mkQ 85 100)
      else (matchWords P setEnum t, mkQ 85 100)) ∧
    (∀ l s, matchFuzzy P ratio t = some (l, s) → Q.le (mkQ 85 100) s = true) := by
  constructor
  · by_cases h1 : truthyL (matchExact P t) = true
    · simp [cascade, h1]
    · have h1' : truthyL (matchExact P t) = false := by simpa using h1
      by_cases h2 : truthyL (matchNormalized P t) = true
      · simp [cascade, h1', h2]
      · have h2' : truthyL (matchNormalized P t) = false := by simpa using h2
        by_cases h3 : truthyL (matchWords P setEnum t) = true
        · simp [cascade, h1', h2', h3]
        · have h3' : truthyL (matchWords P setEnum t) = false := by simpa using h3
          by_cases h4 : useFuzzy = true ∧ t.length > 3
          · cases h5 : matchFuzzy P ratio t with
            | none => simp [cascade, h1', h2', h3', h4, h5]
            | some pr =>
              obtain ⟨l, s⟩ := pr
              simp [cascade, h1', h2', h3', h4, h5]
          · simp [cascade, h1', h2', h3', h4]
  · intro l s h
    exact matchFuzzy_threshold P ratio t (mkQ 85 100) l s h

def pFuz : PromptParser :=
  ⟨[("abcd".toList, [("hair_style".toList, "i1".toList)])], [], [], Trie.empty, []⟩

def ratioOne : Str → Str → Q := fun _ _ => qOne

/-- C5 witness: a concrete fuzzy match whose accepted score meets the
threshold, via the theorem. -/
theorem c5_cascade_witness :
    matchFuzzy pFuz ratioOne ("abcd".toList) = some ([("hair_style".toList, "i1".toList)], qOne) ∧
    Q.le (mkQ 85 100) qOne = true :=
  ⟨by decide,
   (c5_cascade pFuz ratioOne id true ("abcd".toList)).2
     [("hair_style".toList, "i1".toList)] qOne (by decide)⟩

/-! ## C7: confidence aggregation and the skip list -/

theorem assignFirst_count (st : ParseState) (text : Str) (w : Q) (color : Option Str)
    (conf : Q) :
    ∀ l : List (Str × Str),
      (assignFirst st text w color conf l).matchedCount +
        (assignFirst st text w color conf l).unmatched.length =
      st.matchedCount + st.unmatched.length + 1 := by
  intro l
  induction l with
  | nil => simp [assignFirst]; omega
  | cons p rest ih =>
    obtain ⟨sn, iid⟩ := p
    by_cases h : dHas st.results sn = true
    · simp only [assignFirst, h, Bool.true_eq_false]
      simpa using ih
    · have h' : dHas st.results sn = false := by simpa using h
      simp [assignFirst, h']
      omega

theorem assignFirst_unmatched (st : ParseState) (text : Str) (w : Q) (color : Option Str)
    (conf : Q) :
    ∀ l : List (Str × Str),
      (assignFirst st text w color conf l).unmatched = st.unmatched ∨
      (assignFirst st text w color conf l).unmatched = st.unmatched ++ [text] := by
  intro l
  induction l with
  | nil => right; simp [assignFirst]
  | cons p rest ih =>
    obtain ⟨sn, iid⟩ := p
    by_cases h : dHas st.results sn = true
    · simp only [assignFirst, h, Bool.true_eq_false]
      simpa using ih
    · have h' : dHas st.results sn = false := by simpa using h
      left; simp [assignFirst, h']

theorem parseStep_shape (P : PromptParser) (ratio : Str → Str → Q)
    (setEnum : List (Str × Str) → List (Str × Str)) (useFuzzy : Bool)
    (st : ParseState) (tok : PToken) :
    (lowerStr tok.text ∈ skipTokensList →
      parseStep P ratio setEnum useFuzzy st tok = st) ∧
    (lowerStr tok.text ∉ skipTokensList →
      ∃ color conf cand,
        parseStep P ratio setEnum useFuzzy st tok =
          assignFirst st tok.text tok.weight color conf cand) := by
  constructor
  · intro h; simp [parseStep, h]
  · intro h
    simp only [parseStep, h, if_false, decide_eq_true_eq, if_neg h]
    rcases hec : extractColor P tok.text with ⟨color, itemText⟩
    rcases hc : cascade P ratio setEnum useFuzzy itemText with ⟨m, conf⟩
    by_cases hm : truthyL m = true
    · exact ⟨color, conf, m.getD [], by simp [hm]⟩
    · have hm' : truthyL m = false := by simpa using hm
      refine ⟨color, conf, [], ?_⟩
      simp [hm', assignFirst]

theorem parseFold_count (P : PromptParser) (ratio : Str → Str → Q)
    (setEnum : List (Str × Str) → List (Str × Str)) (useFuzzy : Bool) :
    ∀ (toks : List PToken) (st : ParseState),
      (toks.foldl (parseStep P ratio setEnum useFuzzy) st).matchedCount +
        (toks.foldl (parseStep P ratio setEnum useFuzzy) st).unmatched.length =
      st.matchedCount + st.unmatched.length +
        (toks.filter (fun tok => !decide (lowerStr tok.text ∈ skipTokensList))).length := by
  intro toks
  induction toks with
  | nil => intro st; simp
  | cons tok rest ih =>
    intro st
    simp only [List.foldl_cons, List.filter_cons]
    by_cases h : lowerStr tok.text ∈ skipTokensList
    · rw [(parseStep_shape P ratio setEnum useFuzzy st tok).1 h]
      simp only [h, decide_True, Bool.not_true, Bool.false_eq_true, if_false]
      exact ih st
    · obtain ⟨color, conf, cand, hstep⟩ := (parseStep_shape P ratio setEnum useFuzzy st tok).2 h
      rw [hstep]
      have h1 := ih (assignFirst st tok.text tok.weight color conf cand)
      have h2 := assignFirst_count st tok.text tok.weight color conf cand
      simp only [h, decide_False, Bool.not_false, if_true, List.length_cons]
      omega

theorem parseFold_unmatched (P : PromptParser) (ratio : Str → Str → Q)
    (setEnum : List (Str × Str) → List (Str × Str)) (useFuzzy : Bool) :
    ∀ (toks : List PToken) (st : ParseState),
      (∀ u ∈ st.unmatched, lowerStr u ∉ skipTokensList) →
      ∀ u ∈ (toks.foldl (parseStep P ratio setEnum useFuzzy) st).unmatched,
        lowerStr u ∉ skipTokensList := by
  intro toks
  induction toks with
  | nil => intro st h; exact h
  | cons tok rest ih =>
    intro st h
    simp only [List.foldl_cons]
    by_cases hsk : lowerStr tok.text ∈ skipTokensList
    · rw [(parseStep_shape P ratio setEnum useFuzzy st tok).1 hsk]
      exact ih st h
    · obtain ⟨color, conf, cand, hstep⟩ := (parseStep_shape P ratio setEnum useFuzzy st tok).2 hsk
      rw [hstep]
      apply ih
      rcases assignFirst_unmatched st tok.text tok.weight color conf cand with hu | hu
      · rw [hu]; exact h
      · rw [hu]
        intro u hm
        rcases List.mem_append.mp hm with hm | hm
        · exact h u hm
        · rcases List.mem_singleton.mp hm with rfl
          exact hsk

/-- C7: the parse result's overall confidence is the matched-token count
divided by the number of tokens considered after skip-token removal,
rounded to three decimals (0 when nothing remains after skipping);
matched count plus unmatched count equals that total, and skip-list
tokens appear neither in the total nor in the unmatched list. -/
theorem c7_confidence (P : PromptParser) (ratio : Str → Str → Q)
    (setEnum : List (Str × Str) → List (Str × Str)) (useFuzzy : Bool) (prompt : Str) :
    (parse P ratio setEnum prompt useFuzzy).totalTokens =
      ((tokenize prompt).filter
        (fun tok => !decide (lowerStr tok.text ∈ skipTokensList))).length ∧
    (parse P ratio setEnum prompt useFuzzy).matchedCount +
        (parse P ratio setEnum prompt useFuzzy).unmatched.length =
      (parse P ratio setEnum prompt useFuzzy).totalTokens ∧
    (parse P ratio setEnum prompt useFuzzy).confidence =
      (if (parse P ratio setEnum prompt useFuzzy).totalTokens > 0 then
        round3 (mkQ ((parse P ratio setEnum prompt useFuzzy).matchedCount : Int)
          ((parse P ratio setEnum prompt useFuzzy).totalTokens : Int))
      else qZero) ∧
    (∀ u ∈ (parse P ratio setEnum prompt useFuzzy).unmatched,
      lowerStr u ∉ skipTokensList) := by
  rcases hst : (tokenize prompt).foldl (parseStep P ratio setEnum useFuzzy) ⟨[], [], 0⟩
    with ⟨rs, um, mc⟩
  have hres : parse P ratio setEnum prompt useFuzzy =
      ⟨rs, um, mc, mc + um.length,
        round3 (if mc + um.length > 0 then mkQ (mc : Int) ((mc + um.length : Nat) : Int)
          else qZero)⟩ := by
    unfold parse
    rw [hst]
  have hcount := parseFold_count P ratio setEnum useFuzzy (tokenize prompt) ⟨[], [], 0⟩
  rw [hst] at hcount
  simp only [List.length_nil, Nat.zero_add] at hcount
  refine ⟨?_, ?_, ?_, ?_⟩
  · rw [hres]; exact hcount
  · rw [hres]
  · rw [hres]
    simp only
    by_cases hpos : mc + um.length > 0
    · simp [hpos]
    · simp only [hpos, if_false]
      decide
  · rw [hres]
    have := parseFold_unmatched P ratio setEnum useFuzzy (tokenize prompt) ⟨[], [], 0⟩
      (by intro u hu; cases hu)
    rw [hst] at this
    exact this

/-! ## C8: tokenization -/

theorem splitOnChar_ne_nil (sep : Char) (s : Str) : splitOnChar sep s ≠ [] := by
  induction s with
  | nil => simp [splitOnChar]
  | cons c rest ih =>
    by_cases h : c = sep
    · simp [splitOnChar, h]
    · simp only [splitOnChar, h, if_false]
      cases hs : splitOnChar sep rest with
      | nil => exact absurd hs ih
      | cons hh tt => simp

theorem splitOnChar_no_sep (sep : Char) (s : Str) (h : sep ∉ s) :
    splitOnChar sep s = [s] := by
  induction s with
  | nil => rfl
  | cons c rest ih =>
    have hc : ¬ c = sep := fun e => h (e ▸ List.mem_cons_self c rest)
    have hr : sep ∉ rest := fun e => h (List.mem_cons_of_mem c e)
    simp only [splitOnChar, hc, if_false, ih hr]

theorem splitOnChar_append (sep : Char) (a b : Str) (h : sep ∉ a) :
    splitOnChar sep (a ++ sep :: b) = a :: splitOnChar sep b := by
  induction a with
  | nil => simp [splitOnChar]
  | cons c rest ih =>
    have hc : ¬ c = sep := fun e => h (e ▸ List.mem_cons_self c rest)
    have hr : sep ∉ rest := fun e => h (List.mem_cons_of_mem c e)
    simp only [List.cons_append, splitOnChar, hc, if_false]
    rw [show (rest.append (sep :: b)) = rest ++ sep :: b from rfl, ih hr]

theorem pyStrip_cons_space (p : Str) : pyStrip (' ' :: p) = pyStrip p := by
  simp [pyStrip, List.dropWhile_cons, isPySpace]

theorem tokenizePart_congr (a b : Str) (h : pyStrip a = pyStrip b) :
    tokenizePart a = tokenizePart b := by
  unfold tokenizePart
  rw [h]

theorem natDigitsAux_all_digits (fuel : Nat) :
    ∀ n, (natDigitsAux fuel n).all isDigitChar = true := by
  induction fuel with
  | zero => intro n; simp [natDigitsAux]
  | succ f ih =>
    intro n
    by_cases h : n < 10
    · simp only [natDigitsAux, h, if_true, List.all_cons, List.all_nil, Bool.and_true]
      interval_cases n <;> decide
    · simp only [natDigitsAux, h, if_false, List.all_append, ih, Bool.true_and,
        List.all_cons, List.all_nil, Bool.and_true]
      have h10 : n % 10 < 10 := Nat.mod_lt n (by omega)
      set m := n % 10 with hm
      interval_cases m <;> decide

theorem natDigits_all_digits (n : Nat) : (natDigits n).all isDigitChar = true :=
  natDigitsAux_all_digits (n + 1) n

theorem natDigits_ne_nil (n : Nat) : natDigits n ≠ [] := by
  unfold natDigits natDigitsAux
  by_cases h : n < 10
  · simp [h]
  · simp [h]

theorem digit_ne (c ch : Char) (h : isDigitChar c = true) (hch : isDigitChar ch = false) :
    c ≠ ch := by
  intro e; subst e; rw [h] at hch; cases hch

theorem digit_not_space (c : Char) (h : isDigitChar c = true) : isPySpace c = false := by
  by_contra hns
  have hsp : isPySpace c = true := by
    cases hx : isPySpace c
    · exact absurd hx hns
    · rfl
  have : c = ' ' ∨ c = '\t' ∨ c = '\n' ∨ c = '\r' ∨ c = '\x0b' ∨ c = '\x0c' := by
    simpa [isPySpace] using hsp
  rcases this with rfl | rfl | rfl | rfl | rfl | rfl <;> exact absurd h (by decide)

theorem pyStrip_no_space (s : Str) (h : ∀ c ∈ s, isPySpace c = false) :
    pyStrip s = s := by
  unfold pyStrip
  rw [List.dropWhile_eq_self_iff.mpr, List.dropWhile_eq_self_iff.mpr, List.reverse_reverse]
  · intro hc hh
    have hm1 := List.get_mem s 0 hc
    rw [h _ hm1] at hh
    cases hh
  · intro hc hh
    have hm1 := List.get_mem (List.dropWhile isPySpace s).reverse 0 hc
    have hm2 := List.mem_reverse.mp hm1
    have hm3 : (List.dropWhile isPySpace s).reverse.get ⟨0, hc⟩ ∈ s :=
      (List.dropWhile_sublist isPySpace).subset hm2
    rw [h _ hm3] at hh
    cases hh

theorem fmt1_chars (w : Q) (c : Char) (h : c ∈ fmt1 w) :
    c = '-' ∨ c = '.' ∨ isDigitChar c = true := by
  unfold fmt1 at h
  rcases List.mem_append.mp h with h1 | h1
  · rcases List.mem_append.mp h1 with h2 | h2
    · by_cases hlt : Q.lt w qZero = true
      · rw [hlt] at h2; simp at h2; left; simpa using h2
      · have : Q.lt w qZero = false := by simpa using hlt
        rw [this] at h2; simp at h2
    · right; right
      have := natDigits_all_digits ((roundHE (w.mul ⟨10, 1⟩)).natAbs / 10)
      exact List.all_eq_true.mp this c h2
  · rcases List.mem_cons.mp h1 with h2 | h2
    · right; left; exact h2
    · right; right
      have h3 := List.mem_singleton.mp h2
      subst h3
      have h10 : (roundHE (w.mul ⟨10, 1⟩)).natAbs % 10 < 10 := Nat.mod_lt _ (by omega)
      set m := (roundHE (w.mul ⟨10, 1⟩)).natAbs % 10 with hm
      interval_cases m <;> decide

theorem fmt1_no_colon (w : Q) : ':' ∉ fmt1 w := by
  intro h
  rcases fmt1_chars w ':' h with h1 | h1 | h1
  · cases h1
  · cases h1
  · exact absurd h1 (by decide)

theorem fmt1_no_comma (w : Q) : ',' ∉ fmt1 w := by
  intro h
  rcases fmt1_chars w ',' h with h1 | h1 | h1
  · cases h1
  · cases h1
  · exact absurd h1 (by decide)

theorem fmt1_no_space (w : Q) : ∀ c ∈ fmt1 w, isPySpace c = false := by
  intro c h
  rcases fmt1_chars w c h with h1 | h1 | h1
  · subst h1; decide
  · subst h1; decide
  · exact digit_not_space c h1

theorem natDigits_no_dot (n : Nat) : '.' ∉ natDigits n := by
  intro h
  have := List.all_eq_true.mp (natDigits_all_digits n) '.' h
  exact absurd this (by decide)

theorem rfindCharAux_no (c : Char) :
    ∀ (s : Str) (i : Nat) (best : Option Nat), c ∉ s → rfindCharAux c s i best = best := by
  intro s
  induction s with
  | nil => intro i best _; rfl
  | cons x rest ih =>
    intro i best h
    have hx : ¬ x = c := fun e => h (e ▸ List.mem_cons_self x rest)
    have hr : c ∉ rest := fun e => h (List.mem_cons_of_mem x e)
    simp only [rfindCharAux, hx, if_false]
    exact ih (i + 1) best hr

theorem rfindCharAux_append (c : Char) :
    ∀ (a b : Str) (i : Nat) (best : Option Nat),
      rfindCharAux c (a ++ b) i best = rfindCharAux c b (i + a.length) (rfindCharAux c a i best) := by
  intro a
  induction a with
  | nil => intro b i best; simp [rfindCharAux]
  | cons x rest ih =>
    intro b i best
    simp only [List.cons_append, rfindCharAux]
    have hlen : i + (x :: rest).length = (i + 1) + rest.length := by
      simp [List.length_cons]; omega
    rw [hlen, show rest.append b = rest ++ b from rfl]
    exact ih b (i + 1) _

theorem rfindChar_last (c : Char) (a b : Str) (h : c ∉ b) :
    rfindChar c (a ++ c :: b) = some a.length := by
  unfold rfindChar
  rw [rfindCharAux_append]
  simp only [rfindCharAux, if_pos rfl]
  rw [rfindCharAux_no c b _ _ h]
  simp

theorem splitOnChar_digits_dot (a : Str) (d : Char) (ha : '.' ∉ a) (hd : d ≠ '.') :
    splitOnChar '.' (a ++ '.' :: [d]) = [a, [d]] := by
  rw [splitOnChar_append '.' a [d] ha]
  rw [splitOnChar_no_sep '.' [d] (by simpa using fun e => hd e.symm)]

theorem pyFloat?_fmt1_isSome (w : Q) : (pyFloat? (fmt1 w)).isSome = true := by
  have hstrip : pyStrip (fmt1 w) = fmt1 w := pyStrip_no_space _ (fmt1_no_space w)
  have hdig : isDigitChar (Nat.digitChar ((roundHE (w.mul ⟨10, 1⟩)).natAbs % 10)) = true := by
    have hd10 : (roundHE (w.mul ⟨10, 1⟩)).natAbs % 10 < 10 := Nat.mod_lt _ (by omega)
    set m := (roundHE (w.mul ⟨10, 1⟩)).natAbs % 10 with hm
    interval_cases m <;> decide
  have hsplit := splitOnChar_digits_dot (natDigits ((roundHE (w.mul ⟨10, 1⟩)).natAbs / 10))
    (Nat.digitChar ((roundHE (w.mul ⟨10, 1⟩)).natAbs % 10)) (natDigits_no_dot _)
    (digit_ne _ '.' hdig (by decide))
  have hne := natDigits_ne_nil ((roundHE (w.mul ⟨10, 1⟩)).natAbs / 10)
  have hall := natDigits_all_digits ((roundHE (w.mul ⟨10, 1⟩)).natAbs / 10)
  unfold pyFloat?
  rw [hstrip]
  by_cases hlt : Q.lt w qZero = true
  · have hshape : fmt1 w = '-' :: (natDigits ((roundHE (w.mul ⟨10, 1⟩)).natAbs / 10) ++
        '.' :: [Nat.digitChar ((roundHE (w.mul ⟨10, 1⟩)).natAbs % 10)]) := by
      unfold fmt1
      rw [hlt]
      simp
    rw [hshape]
    simp only [List.head?_cons, Option.some.injEq, true_or, if_true, List.drop_succ_cons,
      List.drop_zero, reduceCtorEq, reduceIte]
    rw [hsplit]
    simp [hne, hdig]
    exact List.all_eq_true.mp hall
  · have hlt' : Q.lt w qZero = false := by simpa using hlt
    have hshape : fmt1 w = natDigits ((roundHE (w.mul ⟨10, 1⟩)).natAbs / 10) ++
        '.' :: [Nat.digitChar ((roundHE (w.mul ⟨10, 1⟩)).natAbs % 10)] := by
      unfold fmt1
      rw [hlt']
      simp
    rw [hshape]
    rcases hcons : natDigits ((roundHE (w.mul ⟨10, 1⟩)).natAbs / 10) with _ | ⟨hd, tl⟩
    · exact absurd hcons hne
    · have hdhd : isDigitChar hd = true := by
        have hm : hd ∈ natDigits ((roundHE (w.mul ⟨10, 1⟩)).natAbs / 10) := by
          rw [hcons]; exact List.mem_cons_self hd tl
        exact List.all_eq_true.mp hall hd hm
      have hdm : hd ≠ '-' := digit_ne hd '-' hdhd (by decide)
      have hdp : hd ≠ '+' := digit_ne hd '+' hdhd (by decide)
      rw [hcons] at hsplit hall
      rw [List.cons_append] at hsplit
      simp only [List.cons_append, List.head?_cons, Option.some.injEq, hdm, hdp, or_self,
        if_false, reduceIte]
      rw [hsplit]
      simp [hdig]
      have h := List.all_eq_true.mp hall
      exact ⟨h hd (List.mem_cons_self hd tl), fun x hx => h x (List.mem_cons_of_mem hd hx)⟩

theorem pyStrip_paren (xs : Str) : pyStrip ('(' :: xs ++ [')']) = '(' :: xs ++ [')'] := by
  unfold pyStrip
  rw [show ('(' :: xs ++ [')']) = '(' :: (xs ++ [')']) from rfl, List.dropWhile_cons]
  simp only [show isPySpace '(' = false from rfl, Bool.false_eq_true, if_false]
  have e2 : ('(' :: (xs ++ [')'])).reverse = ')' :: (xs.reverse ++ ['(']) := by simp
  rw [e2, List.dropWhile_cons]
  simp only [show isPySpace ')' = false from rfl, Bool.false_eq_true, if_false]
  simp

theorem tokenizePart_wrapped (t : Str) (w : Q) (ht : t ≠ []) :
    tokenizePart ('(' :: (t ++ ':' :: fmt1 w) ++ [')']) =
      some ⟨t, (pyFloat? (fmt1 w)).getD qOne⟩ := by
  unfold tokenizePart
  rw [pyStrip_paren (t ++ ':' :: fmt1 w)]
  have hcolon : (('(' :: (t ++ ':' :: fmt1 w) ++ [')']).contains ':') = true :=
    List.elem_iff.mpr (by
      apply List.mem_cons_of_mem
      apply List.mem_append_left
      exact List.mem_append_right t (List.mem_cons_self ':' (fmt1 w)))
  have hhead : ('(' :: (t ++ ':' :: fmt1 w) ++ [')']).head? = some '(' := rfl
  have hlast : ('(' :: (t ++ ':' :: fmt1 w) ++ [')']).getLast? = some ')' := by
    rw [show ('(' :: (t ++ ':' :: fmt1 w) ++ [')']) =
        ('(' :: (t ++ ':' :: fmt1 w)) ++ [')'] from rfl]
    exact List.getLast?_concat _
  rw [if_neg (show ¬('(' :: (t ++ ':' :: fmt1 w) ++ [')']) = [] by simp),
      if_pos ⟨hhead, hlast, hcolon⟩]
  have hinner : (('(' :: (t ++ ':' :: fmt1 w) ++ [')']).drop 1).dropLast =
      t ++ ':' :: fmt1 w := by
    rw [show ('(' :: (t ++ ':' :: fmt1 w) ++ [')']).drop 1 =
        (t ++ ':' :: fmt1 w) ++ [')'] from rfl]
    exact List.dropLast_concat
  have hpos : 0 < t.length := List.length_pos.mpr ht
  have hdrop : (t ++ ':' :: fmt1 w).drop (t.length + 1) = fmt1 w := by
    rw [show t ++ ':' :: fmt1 w = (t ++ [':']) ++ fmt1 w by simp]
    rw [show t.length + 1 = (t ++ [':']).length by simp]
    exact List.drop_left _ _
  have htake : (t ++ ':' :: fmt1 w).take t.length = t := List.take_left t _
  rw [hinner]
  simp only [rfindChar_last ':' t (fmt1 w) (fmt1_no_colon w), hdrop, htake]
  rw [if_pos hpos]
  rcases hv : pyFloat? (fmt1 w) with _ | v
  · exact absurd (hv ▸ pyFloat?_fmt1_isSome w) (by simp)
  · rfl

/-- C8 counterexample: `_tokenize` strips only the surrounding whitespace
of a token; internal whitespace is NOT collapsed, contrary to the claim
(the token `"b  c"` keeps its double space). -/
theorem c8_counterexample :
    (tokenize ("a,  b  c".toList)).map PToken.text = [['a'], ['b', ' ', ' ', 'c']] ∧
    ['b', ' ', ' ', 'c'] ≠ ("b c".toList) := by
  constructor
  · decide
  · decide

/-- C8 (amended): tokenization splits the input on commas; strips each
token's surrounding (not internal) whitespace; drops empty parts;
unwraps well-formed `(text:weight)` syntax into the bare text and the
parsed float weight; and keeps weight 1.0 (with the text unchanged) when
the weight suffix is absent or malformed. -/
theorem c8_amended :
    (∀ a b : Str, ',' ∉ a → tokenize (a ++ ',' :: b) = tokenize a ++ tokenize b) ∧
    (∀ (t : Str) (w : Q), t ≠ [] → ',' ∉ t →
      (pyFloat? (fmt1 w)).isSome = true ∧
      tokenize ('(' :: (t ++ ':' :: fmt1 w) ++ [')']) =
        [⟨t, (pyFloat? (fmt1 w)).getD qOne⟩]) ∧
    (∀ p : Str, tokenize (' ' :: p) = tokenize p) ∧
    (∀ p : Str, p ≠ [] → pyStrip p = p → ',' ∉ p →
      ¬(p.head? = some '(' ∧ p.getLast? = some ')' ∧ p.contains ':' = true) →
      tokenize p = [⟨p, qOne⟩]) ∧
    tokenize ("(a:xy)".toList) = [⟨"(a:xy)".toList, qOne⟩] := by
  refine ⟨?_, ?_, ?_, ?_, by decide⟩
  · intro a b ha
    unfold tokenize
    rw [splitOnChar_append ',' a b ha, splitOnChar_no_sep ',' a ha]
    simp [List.filterMap_cons]
    cases tokenizePart a <;> simp
  · intro t w ht htc
    refine ⟨pyFloat?_fmt1_isSome w, ?_⟩
    have hnc : ',' ∉ ('(' :: (t ++ ':' :: fmt1 w) ++ [')']) := by
      intro hm
      rcases List.mem_cons.mp hm with h1 | h1
      · cases h1
      · rcases List.mem_append.mp h1 with h2 | h2
        · rcases List.mem_append.mp h2 with h3 | h3
          · exact htc h3
          · rcases List.mem_cons.mp h3 with h4 | h4
            · cases h4
            · exact fmt1_no_comma w h4
        · rcases List.mem_singleton.mp h2 with h3
          cases h3
    unfold tokenize
    rw [splitOnChar_no_sep ',' _ hnc]
    simp only [List.filterMap_cons, List.filterMap_nil,
      tokenizePart_wrapped t w ht]
  · intro p
    unfold tokenize
    have hne : ' ' ≠ ',' := by decide
    simp only [splitOnChar, hne, if_false]
    rcases hs : splitOnChar ',' p with _ | ⟨h, rest⟩
    · exact absurd hs (splitOnChar_ne_nil ',' p)
    · simp only [List.filterMap_cons,
        tokenizePart_congr (' ' :: h) h (pyStrip_cons_space h)]
  · intro p hne hstrip hnc hmal
    unfold tokenize
    rw [splitOnChar_no_sep ',' p hnc]
    simp only [List.filterMap_cons, List.filterMap_nil]
    unfold tokenizePart
    rw [hstrip, if_neg hne, if_neg hmal]

/-- C8 witness: each amended clause at a concrete input. -/
theorem c8_amended_witness :
    tokenize (("ab".toList) ++ ',' :: (" cd".toList)) =
      tokenize ("ab".toList) ++ tokenize (" cd".toList) ∧
    tokenize ('(' :: (("red dress".toList) ++ ':' :: fmt1 (mkQ 13 10)) ++ [')']) =
      [⟨"red dress".toList, (pyFloat? (fmt1 (mkQ 13 10))).getD qOne⟩] ∧
    tokenize (' ' :: ("xy".toList)) = tokenize ("xy".toList) ∧
    tokenize ("hat".toList) = [⟨"hat".toList, qOne⟩] :=
  ⟨c8_amended.1 ("ab".toList) (" cd".toList) (by decide),
   (c8_amended.2.1 ("red dress".toList) (mkQ 13 10) (by decide) (by decide)).2,
   c8_amended.2.2.1 ("xy".toList),
   c8_amended.2.2.2.1 ("hat".toList) (by decide) (by decide) (by decide) (by decide)⟩

/-! ## C10: color extraction and the word boundary -/

/-- Descend the trie along a (lowercased) word. -/
def Trie.walkNode : Trie → Str → Option Trie
  | t, [] => some t
  | t, c :: rest =>
    match dGet t.children c with
    | some sub => Trie.walkNode sub rest
    | none => none

theorem containsWord_eq_walkNode (w : Str) : ∀ t : Trie,
    Trie.containsWord t w =
      (match Trie.walkNode t w with
        | some n => (Trie.term n).isSome
        | none => false) := by
  induction w with
  | nil => intro t; rfl
  | cons c rest ih =>
    intro t
    rcases t with ⟨term, ch⟩
    simp only [Trie.containsWord, Trie.walkNode, Trie.children]
    cases dGet ch c with
    | none => rfl
    | some sub => exact ih sub

theorem walkNode_append (a b : Str) : ∀ t : Trie,
    Trie.walkNode t (a ++ b) =
      (match Trie.walkNode t a with
        | some m => Trie.walkNode m b
        | none => none) := by
  induction a with
  | nil => intro t; rfl
  | cons c rest ih =>
    intro t
    rcases t with ⟨term, ch⟩
    simp only [List.cons_append, Trie.walkNode, Trie.children]
    cases dGet ch c with
    | none => rfl
    | some sub => exact ih sub

theorem findPrefixAux_bound (text : Str) :
    ∀ (rest : Str) (tr : Trie) (i : Nat) (last : Option (Str × Nat)),
      text.drop i = rest →
      (∀ c n, last = some (c, n) → 2 ≤ n ∧ n ≤ text.length ∧ text[n - 1]? = some ' ') →
      ∀ c n, Trie.findPrefixAux tr rest i last = some (c, n) →
        2 ≤ n ∧ n ≤ text.length ∧ text[n - 1]? = some ' ' := by
  intro rest
  induction rest with
  | nil =>
    intro tr i last _ hlast c n h
    rcases tr with ⟨term, ch⟩
    exact hlast c n h
  | cons x rest' ih =>
    intro tr i last hdrop hlast c n h
    rcases tr with ⟨term, ch⟩
    simp only [Trie.findPrefixAux] at h
    cases hch : dGet ch x.toLower with
    | none =>
      rw [hch] at h
      exact hlast c n h
    | some sub =>
      rw [hch] at h
      have hdrop' : text.drop (i + 1) = rest' := by
        have : text.drop (i + 1) = (text.drop i).drop 1 := by
          rw [List.drop_drop]
        rw [this, hdrop]
        rfl
      have hlast' : ∀ c' n',
          (match Trie.term sub with
            | some canon => if rest'.head? = some ' ' then some (canon, i + 2) else last
            | none => last) = some (c', n') →
          2 ≤ n' ∧ n' ≤ text.length ∧ text[n' - 1]? = some ' ' := by
        intro c' n' h'
        cases hterm : Trie.term sub with
        | none => rw [hterm] at h'; exact hlast c' n' h'
        | some canon =>
          rw [hterm] at h'
          replace h' : (if rest'.head? = some ' ' then some (canon, i + 2) else last) =
              some (c', n') := h'
          by_cases hsp : rest'.head? = some ' '
          · rw [if_pos hsp] at h'
            cases Option.some.inj h'
            -- rest' is nonempty, so i + 2 ≤ text.length
            rcases rest' with _ | ⟨y, ys⟩
            · cases hsp
            · have h1 : (text.drop i).length = ys.length + 2 := by
                rw [hdrop]; simp
              have h2 : (text.drop i).length = text.length - i := by
                simp [List.length_drop]
              refine ⟨by omega, by omega, ?_⟩
              have h3 : (text.drop i)[1]? = text[i + 1]? := by
                rw [List.getElem?_drop]
              rw [show i + 2 - 1 = i + 1 from rfl, ← h3, hdrop]
              simpa using hsp
          · rw [if_neg hsp] at h'
            exact hlast c' n' h'
      exact ih sub (i + 1)
        (match Trie.term sub with
          | some canon => if rest'.head? = some ' ' then some (canon, i + 2) else last
          | none => last) hdrop' hlast' c n h

theorem findPrefixAux_none (root : Trie) (text : Str)
    (hno : ∀ k, k < text.length → text[k]? = some ' ' →
      Trie.containsWord root (lowerStr (text.take k)) = false) :
    ∀ (rest : Str) (cur : Trie) (i : Nat),
      text.drop i = rest →
      Trie.walkNode root (lowerStr (text.take i)) = some cur →
      Trie.findPrefixAux cur rest i none = none := by
  intro rest
  induction rest with
  | nil =>
    intro cur i _ _
    rcases cur with ⟨term, ch⟩
    rfl
  | cons x rest' ih =>
    intro cur i hdrop hwalk
    rcases cur with ⟨term, ch⟩
    simp only [Trie.findPrefixAux]
    cases hch : dGet ch x.toLower with
    | none => rfl
    | some sub =>
      have hxi : text[i]? = some x := by
        have h3 : (text.drop i)[0]? = text[i + 0]? := by
          rw [List.getElem?_drop]
        rw [hdrop] at h3
        simpa using h3.symm
      have htake : text.take (i + 1) = text.take i ++ [x] := by
        rw [List.take_succ, hxi]
        rfl
      have hwalk' : Trie.walkNode root (lowerStr (text.take (i + 1))) = some sub := by
        rw [htake]
        have : lowerStr (text.take i ++ [x]) = lowerStr (text.take i) ++ [x.toLower] := by
          simp [lowerStr]
        rw [this, walkNode_append, hwalk]
        simp only [Trie.walkNode, Trie.children, hch]
      have hdrop' : text.drop (i + 1) = rest' := by
        have : text.drop (i + 1) = (text.drop i).drop 1 := by rw [List.drop_drop]
        rw [this, hdrop]
        rfl
      have hlastnone :
          (match Trie.term sub with
            | some canon => if rest'.head? = some ' ' then some (canon, i + 2) else none
            | none => (none : Option (Str × Nat))) = none := by
        cases hterm : Trie.term sub with
        | none => rfl
        | some canon =>
          by_cases hsp : rest'.head? = some ' '
          · exfalso
            rcases rest' with _ | ⟨y, ys⟩
            · cases hsp
            · have hy : y = ' ' := by simpa using hsp
              have hk : i + 1 < text.length := by
                have h1 : (text.drop i).length = ys.length + 2 := by rw [hdrop]; simp
                have h2 : (text.drop i).length = text.length - i := by simp
                omega
              have hsk : text[i + 1]? = some ' ' := by
                have h3 : (text.drop i)[1]? = text[i + 1]? := by rw [List.getElem?_drop]
                rw [← h3, hdrop, hy]
                simp
              have hcw := hno (i + 1) hk hsk
              rw [containsWord_eq_walkNode, hwalk'] at hcw
              replace hcw : (Trie.term sub).isSome = false := hcw
              rw [hterm] at hcw
              simp at hcw
          · simp [hsp, hterm]
      have hgoal : Trie.findPrefixAux sub rest' (i + 1)
          (match Trie.term sub with
            | some canon => if rest'.head? = some ' ' then some (canon, i + 2) else none
            | none => none) = none := by
        rw [hlastnone]
        exact ih sub (i + 1) hdrop' hwalk'
      exact hgoal

def envC10 : Env :=
  { slotOptions := [], catalogItems := []
  , individualColors := ["red".toList, "red x".toList]
  , colorI18n := [], palettes := [] }

/-- C10 counterexample: with colors `red` and `red x` in the trie, the
token `red x` consists exactly of a color surface form, yet a color
(`red`) IS extracted, because a shorter boundary-qualified match exists. -/
theorem c10_counterexample :
    ("red x".toList) ∈ envC10.individualColors ∧
    extractColor (buildParserIndices envC10) ("red x".toList) =
      (some ("red".toList), "x".toList) ∧
    (some ("red".toList), "x".toList) ≠ ((none : Option Str), "red x".toList) := by
  refine ⟨by decide, by decide, by decide⟩

/-- C10 (amended): color extraction only accepts a trie match that is
immediately followed by a space (so an accepted match never ends at the
last character); consequently a token with no boundary-qualified color
prefix — in particular a token that is exactly a single color surface
form with no shorter color prefix at a space — has no color extracted
and is passed unchanged to the matching cascade. -/
theorem c10_amended :
    (∀ (tr : Trie) (text : Str) (c : Str) (n : Nat),
      Trie.findPrefixM tr text = some (c, n) →
      2 ≤ n ∧ n ≤ text.length ∧ text[n - 1]? = some ' ') ∧
    (∀ (P : PromptParser) (text : Str),
      (∀ k, k < text.length → text[k]? = some ' ' →
        Trie.containsWord P.colorTrie (lowerStr (text.take k)) = false) →
      extractColor P text = (none, text)) := by
  constructor
  · intro tr text c n h
    exact findPrefixAux_bound text text tr 0 none rfl (by intro c' n' h'; cases h') c n h
  · intro P text hno
    have hpref : Trie.findPrefixM P.colorTrie text = none := by
      unfold Trie.findPrefixM
      exact findPrefixAux_none P.colorTrie text hno text P.colorTrie 0 rfl rfl
    simp [extractColor, hpref]

/-- C10 witness: a single-word color token passes through unchanged. -/
theorem c10_amended_witness :
    extractColor (buildParserIndices envC10) ("red".toList) = (none, "red".toList) :=
  c10_amended.2 (buildParserIndices envC10) ("red".toList) (by decide)

/-! ## C6: candidate assignment -/

def itemAlphaBG : Item :=
  ⟨"u1".toList, some ("alpha beta gamma".toList), [], false⟩
def itemBAD : Item :=
  ⟨"l1".toList, some ("beta alpha delta".toList), [], false⟩

def envC6 : Env :=
  { slotOptions := [(upperBodyName, [itemAlphaBG]), (lowerBodyName, [itemBAD])]
  , catalogItems := [("clothing".toList, [itemAlphaBG, itemBAD])]
  , individualColors := [], colorI18n := [], palettes := [] }

/-- C6 counterexample: CPython set iteration order (string hashes are
randomized per process) is modelled by the `setEnum` parameter of the
word-intersection strategy.  Under the legal enumeration `List.reverse`,
the token `alpha beta` — whose word-intersection candidates span the
`upper_body` and `lower_body` slots, both unfilled — is assigned to
`lower_body`, NOT to the first candidate slot in Slot Schema declaration
order (`upper_body`), which it receives under the identity enumeration. -/
theorem c6_counterexample :
    (dGet (parse (buildParserIndices envC6) ratioOne List.reverse
        ("alpha beta".toList) false).slots lowerBodyName).map (fun r => r.value_id) =
      some ("l1".toList) ∧
    dGet (parse (buildParserIndices envC6) ratioOne List.reverse
        ("alpha beta".toList) false).slots upperBodyName = none ∧
    (dGet (parse (buildParserIndices envC6) ratioOne id
        ("alpha beta".toList) false).slots upperBodyName).map (fun r => r.value_id) =
      some ("u1".toList) := by
  refine ⟨by decide, by decide, by decide⟩

def slotPosAux (s : Str) : List Str → Nat
  | [] => 0
  | x :: rest => if x = s then 0 else slotPosAux s rest + 1

/-- Position of a slot in the Slot Schema declaration order. -/
def slotPos (s : Str) : Nat := slotPosAux s slotDefNames

theorem assignFirst_all_filled (st : ParseState) (text : Str) (w : Q)
    (color : Option Str) (conf : Q) :
    ∀ l : List (Str × Str), (∀ p ∈ l, dHas st.results p.1 = true) →
      assignFirst st text w color conf l =
        { st with unmatched := st.unmatched ++ [text] } := by
  intro l
  induction l with
  | nil => intro _; rfl
  | cons p rest ih =>
    intro h
    obtain ⟨sn, iid⟩ := p
    have hp : dHas st.results sn = true := h (sn, iid) (List.mem_cons_self _ _)
    simp only [assignFirst, hp, Bool.true_eq_false, not_true_eq_false, if_false]
    exact ih (fun q hq => h q (List.mem_cons_of_mem _ hq))

theorem assignFirst_first_unfilled (st : ParseState) (text : Str) (w : Q)
    (color : Option Str) (conf : Q) :
    ∀ (l₁ : List (Str × Str)) (s id : Str) (l₂ : List (Str × Str)),
      (∀ p ∈ l₁, dHas st.results p.1 = true) → dHas st.results s = false →
      assignFirst st text w color conf (l₁ ++ (s, id) :: l₂) =
        { st with
            results := dSet st.results s
              ⟨id, (if slotHasColor s then color else none), w, true, conf⟩,
            matchedCount := st.matchedCount + 1 } := by
  intro l₁
  induction l₁ with
  | nil =>
    intro s id l₂ _ hs
    simp [assignFirst, hs]
  | cons p rest ih =>
    intro s id l₂ h hs
    obtain ⟨sn, iid⟩ := p
    have hp : dHas st.results sn = true := h (sn, iid) (List.mem_cons_self _ _)
    simp only [List.cons_append, assignFirst, hp, Bool.true_eq_false, not_true_eq_false,
      if_false]
    exact ih s id l₂ (fun q hq => h q (List.mem_cons_of_mem _ hq)) hs

theorem dGet_mem {κ α : Type} [DecidableEq κ] (d : List (κ × α)) (k : κ) (v : α)
    (h : dGet d k = some v) : (k, v) ∈ d := by
  induction d with
  | nil => cases h
  | cons hd tl ih =>
    obtain ⟨a, b⟩ := hd
    by_cases ha : a = k
    · subst ha
      have hh : dGet ((a, b) :: tl) a = some b := by simp [dGet]
      rw [hh] at h
      cases Option.some.inj h
      exact List.mem_cons_self _ _
    · have hh : dGet ((a, b) :: tl) k = dGet tl k := by simp [dGet, ha]
      rw [hh] at h
      exact List.mem_cons_of_mem _ (ih h)

theorem mem_dSet {κ α : Type} [DecidableEq κ] (d : List (κ × α)) (k k' : κ) (v v' : α)
    (h : (k', v') ∈ dSet d k v) : (k' = k ∧ v' = v) ∨ (k', v') ∈ d := by
  induction d with
  | nil =>
    simp only [dSet] at h
    have h' := List.mem_singleton.mp h
    left
    exact ⟨congrArg Prod.fst h', congrArg Prod.snd h'⟩
  | cons hd tl ih =>
    obtain ⟨a, b⟩ := hd
    by_cases ha : a = k
    · have hd2 : dSet ((a, b) :: tl) k v = (k, v) :: tl := by simp [dSet, ha]
      rw [hd2] at h
      rcases List.mem_cons.mp h with h' | h'
      · left; exact ⟨congrArg Prod.fst h', congrArg Prod.snd h'⟩
      · right; exact List.mem_cons_of_mem _ h'
    · have hd2 : dSet ((a, b) :: tl) k v = (a, b) :: dSet tl k v := by simp [dSet, ha]
      rw [hd2] at h
      rcases List.mem_cons.mp h with h' | h'
      · right; rw [h']; exact List.mem_cons_self _ _
      · rcases ih h' with h'' | h''
        · left; exact h''
        · right; exact List.mem_cons_of_mem _ h''

/-- Order invariant on a candidate index: every stored list is sorted by
slot declaration position, bounded by `B`. -/
def IdxOk (idx : List (Str × List (Str × Str))) (B : Nat) : Prop :=
  ∀ key l, (key, l) ∈ idx →
    l.Chain' (fun a b => slotPos a.1 ≤ slotPos b.1) ∧ ∀ p ∈ l, slotPos p.1 ≤ B

theorem IdxOk_mono (idx : List (Str × List (Str × Str))) (B B' : Nat)
    (h : IdxOk idx B) (hb : B ≤ B') : IdxOk idx B' := by
  intro key l hm
  obtain ⟨h1, h2⟩ := h key l hm
  exact ⟨h1, fun p hp => Nat.le_trans (h2 p hp) hb⟩

theorem indexAdd_ok (idx : List (Str × List (Str × Str))) (B : Nat) (key : Str)
    (s id : Str) (h : IdxOk idx B) (hb : B ≤ slotPos s) :
    IdxOk (indexAdd idx key (s, id)) (slotPos s) := by
  intro key' l' hm
  unfold indexAdd at hm
  cases hg : dGet idx key with
  | none =>
    rw [hg] at hm
    rcases mem_dSet _ _ _ _ _ hm with ⟨hk, hv⟩ | hold
    · subst hv
      exact ⟨by simp, by simp⟩
    · obtain ⟨h1, h2⟩ := h key' l' hold
      exact ⟨h1, fun p hp => Nat.le_trans (h2 p hp) hb⟩
  | some l0 =>
    rw [hg] at hm
    rcases mem_dSet _ _ _ _ _ hm with ⟨hk, hv⟩ | hold
    · subst hv
      obtain ⟨h1, h2⟩ := h key l0 (dGet_mem _ _ _ hg)
      constructor
      · rw [List.chain'_append]
        refine ⟨h1, by simp, ?_⟩
        intro x hx y hy
        simp only [List.head?_cons, Option.mem_def, Option.some.injEq] at hy
        subst hy
        have hxm : x ∈ l0 := List.mem_of_mem_getLast? hx
        exact Nat.le_trans (h2 x hxm) hb
      · intro p hp
        rcases List.mem_append.mp hp with hp | hp
        · exact Nat.le_trans (h2 p hp) hb
        · rcases List.mem_singleton.mp hp with rfl
          simp
    · obtain ⟨h1, h2⟩ := h key' l' hold
      exact ⟨h1, fun p hp => Nat.le_trans (h2 p hp) hb⟩

theorem foldlInv {α β : Type} (Inv : α → Prop) (f : α → β → α)
    (hs : ∀ a b, Inv a → Inv (f a b)) :
    ∀ (l : List β) (a : α), Inv a → Inv (l.foldl f a) := by
  intro l
  induction l with
  | nil => intro a h; exact h
  | cons x rest ih => intro a h; exact ih (f a x) (hs a x h)

/-- Invariant of both candidate indices together. -/
def PIdxOk (P : PromptParser) (B : Nat) : Prop :=
  IdxOk P.exactIndex B ∧ IdxOk P.normalizedIndex B

theorem indexName_ok (P : PromptParser) (B : Nat) (name : Str) (s id : Str)
    (h : PIdxOk P B) (hb : B ≤ slotPos s) : PIdxOk (indexName P name s id) (slotPos s) := by
  obtain ⟨he, hn⟩ := h
  unfold indexName
  by_cases h0 : pyStrip (lowerStr name) = []
  · simp only [h0, if_pos rfl]
    exact ⟨IdxOk_mono _ _ _ he hb, IdxOk_mono _ _ _ hn hb⟩
  · simp only [h0, if_neg h0]
    set nameLower := pyStrip (lowerStr name)
    have he1 : IdxOk (indexAdd P.exactIndex nameLower (s, id)) (slotPos s) :=
      indexAdd_ok _ _ _ _ _ he hb
    by_cases h1 : normalizeText nameLower ≠ nameLower
    · simp only [h1, if_pos h1]
      have hn1 : IdxOk (indexAdd P.normalizedIndex (normalizeText nameLower) (s, id))
          (slotPos s) := indexAdd_ok _ _ _ _ _ hn hb
      by_cases h2 : (pySplitWs nameLower).length > 1
      · simp only [h2, if_pos h2]
        exact ⟨he1, hn1⟩
      · simp only [h2, if_neg h2]
        exact ⟨he1, hn1⟩
    · simp only [h1, if_neg h1]
      have hn1 : IdxOk P.normalizedIndex (slotPos s) := IdxOk_mono _ _ _ hn hb
      by_cases h2 : (pySplitWs nameLower).length > 1
      · simp only [h2, if_pos h2]
        exact ⟨he1, hn1⟩
      · simp only [h2, if_neg h2]
        exact ⟨he1, hn1⟩

theorem indexItem_ok (P : PromptParser) (s : Str) (it : Item)
    (h : PIdxOk P (slotPos s)) : PIdxOk (indexItem P s it) (slotPos s) := by
  unfold indexItem
  by_cases h0 : it.id = []
  · simp only [h0, if_pos rfl]; exact h
  · simp only [h0, if_neg h0]
    have hstep : PIdxOk (if it.name.getD [] ≠ [] then
        indexName P (it.name.getD []) s it.id else P) (slotPos s) := by
      by_cases h1 : it.name.getD [] ≠ []
      · simp only [h1, if_pos h1]
        exact indexName_ok P (slotPos s) _ s it.id h (Nat.le_refl _)
      · simp only [h1, if_neg h1]
        exact h
    apply foldlInv (fun P' => PIdxOk P' (slotPos s))
    · intro P' p hP'
      by_cases h2 : p.2 ≠ [] ∧ p.2 ≠ it.name.getD []
      · simp only [h2, if_pos h2]
        exact indexName_ok P' (slotPos s) _ s it.id hP' (Nat.le_refl _)
      · simp only [h2, if_neg h2]
        exact hP'
    · exact hstep

theorem slotPosAux_le (s : Str) : ∀ l : List Str, slotPosAux s l ≤ l.length := by
  intro l
  induction l with
  | nil => simp [slotPosAux]
  | cons x rest ih =>
    by_cases h : x = s
    · simp [slotPosAux, h]
    · simp only [slotPosAux, h, if_false, List.length_cons]
      omega

theorem slotPos_le (s : Str) : slotPos s ≤ slotDefNames.length := slotPosAux_le s _

def chainLeB : List Nat → Bool
  | [] => true
  | [_] => true
  | a :: b :: rest => decide (a ≤ b) && chainLeB (b :: rest)

theorem chainLeB_chain' : ∀ l : List Nat, chainLeB l = true → l.Chain' (· ≤ ·) := by
  intro l
  induction l with
  | nil => intro _; simp
  | cons a rest ih =>
    intro h
    cases rest with
    | nil => simp
    | cons b rest' =>
      simp only [chainLeB, Bool.and_eq_true, decide_eq_true_eq] at h
      exact List.Chain'.cons h.1 (ih (by simpa [chainLeB] using h.2))

theorem slotFold_ok (env : Env) :
    ∀ (L : List (Str × SlotDef)) (P : PromptParser) (B : Nat),
      PIdxOk P B →
      (B :: L.map (fun sd => slotPos sd.1)).Chain' (· ≤ ·) →
      ∃ B', PIdxOk (L.foldl (fun P sd =>
        (getSlotOptions env sd.1).foldl (fun P it => indexItem P sd.1 it) P) P) B' := by
  intro L
  induction L with
  | nil => intro P B h _; exact ⟨B, h⟩
  | cons sd rest ih =>
    intro P B h hchain
    simp only [List.map_cons, List.chain'_cons] at hchain
    obtain ⟨hB, hchain'⟩ := hchain
    simp only [List.foldl_cons]
    apply ih _ (slotPos sd.1)
    · apply foldlInv (fun P' => PIdxOk P' (slotPos sd.1))
      · intro P' it hP'
        exact indexItem_ok P' sd.1 it hP'
      · exact ⟨IdxOk_mono _ _ _ h.1 hB, IdxOk_mono _ _ _ h.2 hB⟩
    · exact hchain'

theorem colorFold_indices (env : Env) (P : PromptParser) :
    (env.colorI18n.foldl (fun P p =>
      p.2.foldl (fun P q =>
        if q.2 ≠ [] then
          { P with colorTrie := P.colorTrie.insertWord q.2 p.1,
                   colorCanonical := dSet P.colorCanonical (lowerStr q.2) p.1 }
        else P) P)
      (env.individualColors.foldl (fun P c =>
        { P with colorTrie := P.colorTrie.insertWord c c,
                 colorCanonical := dSet P.colorCanonical (lowerStr c) c }) P)).exactIndex =
      P.exactIndex ∧
    (env.colorI18n.foldl (fun P p =>
      p.2.foldl (fun P q =>
        if q.2 ≠ [] then
          { P with colorTrie := P.colorTrie.insertWord q.2 p.1,
                   colorCanonical := dSet P.colorCanonical (lowerStr q.2) p.1 }
        else P) P)
      (env.individualColors.foldl (fun P c =>
        { P with colorTrie := P.colorTrie.insertWord c c,
                 colorCanonical := dSet P.colorCanonical (lowerStr c) c }) P)).normalizedIndex =
      P.normalizedIndex := by
  have hInv := foldlInv (fun P' : PromptParser =>
      P'.exactIndex = P.exactIndex ∧ P'.normalizedIndex = P.normalizedIndex)
    (fun P' (p : Str × List (Str × Str)) =>
      p.2.foldl (fun P'' q =>
        if q.2 ≠ [] then
          { P'' with colorTrie := P''.colorTrie.insertWord q.2 p.1,
                     colorCanonical := dSet P''.colorCanonical (lowerStr q.2) p.1 }
        else P'') P')
    (by
      intro a p ha
      apply foldlInv (fun P'' : PromptParser =>
        P''.exactIndex = P.exactIndex ∧ P''.normalizedIndex = P.normalizedIndex)
      · intro a' q ha'
        by_cases hq : q.2 ≠ []
        · simp only [hq, if_pos hq]
          exact ha'
        · simp only [hq, if_neg hq]
          exact ha'
      · exact ha)
    env.colorI18n
  apply hInv
  apply foldlInv (fun P' : PromptParser =>
    P'.exactIndex = P.exactIndex ∧ P'.normalizedIndex = P.normalizedIndex)
  · intro a c ha
    exact ha
  · exact ⟨rfl, rfl⟩

theorem buildParserIndices_sorted (env : Env) :
    IdxOk (buildParserIndices env).exactIndex slotDefNames.length ∧
    IdxOk (buildParserIndices env).normalizedIndex slotDefNames.length := by
  have hchain : ((0 : Nat) :: SLOT_DEFINITIONS.map (fun sd => slotPos sd.1)).Chain' (· ≤ ·) :=
    chainLeB_chain' _ (by decide)
  have h0 : PIdxOk ⟨[], [], [], Trie.empty, []⟩ 0 := by
    constructor <;> (intro key l hm; cases hm)
  obtain ⟨B', hB'⟩ := slotFold_ok env SLOT_DEFINITIONS ⟨[], [], [], Trie.empty, []⟩ 0 h0 hchain
  have hcf := colorFold_indices env (SLOT_DEFINITIONS.foldl (fun P sd =>
    (getSlotOptions env sd.1).foldl (fun P it => indexItem P sd.1 it) P)
    ⟨[], [], [], Trie.empty, []⟩)
  have hb2 : ∀ key l, (key, l) ∈ (buildParserIndices env).exactIndex →
      l.Chain' (fun a b => slotPos a.1 ≤ slotPos b.1) ∧ ∀ p ∈ l, slotPos p.1 ≤ B' := by
    intro key l hm
    rw [show (buildParserIndices env).exactIndex = (SLOT_DEFINITIONS.foldl (fun P sd =>
      (getSlotOptions env sd.1).foldl (fun P it => indexItem P sd.1 it) P)
      ⟨[], [], [], Trie.empty, []⟩).exactIndex from hcf.1] at hm
    exact hB'.1 key l hm
  have hb3 : ∀ key l, (key, l) ∈ (buildParserIndices env).normalizedIndex →
      l.Chain' (fun a b => slotPos a.1 ≤ slotPos b.1) ∧ ∀ p ∈ l, slotPos p.1 ≤ B' := by
    intro key l hm
    rw [show (buildParserIndices env).normalizedIndex = (SLOT_DEFINITIONS.foldl (fun P sd =>
      (getSlotOptions env sd.1).foldl (fun P it => indexItem P sd.1 it) P)
      ⟨[], [], [], Trie.empty, []⟩).normalizedIndex from hcf.2] at hm
    exact hB'.2 key l hm
  constructor
  · intro key l hm
    obtain ⟨h1, h2⟩ := hb2 key l hm
    refine ⟨h1, fun p hp => ?_⟩
    by_cases hmem : slotPos p.1 ≤ slotDefNames.length
    · exact hmem
    · exact absurd (slotPos_le p.1) hmem
  · intro key l hm
    obtain ⟨h1, h2⟩ := hb3 key l hm
    refine ⟨h1, fun p hp => ?_⟩
    by_cases hmem : slotPos p.1 ≤ slotDefNames.length
    · exact hmem
    · exact absurd (slotPos_le p.1) hmem

theorem foldlInvMem {α β : Type} (Inv : α → Prop) (f : α → β → α) (big : List β)
    (hs : ∀ a b, b ∈ big → Inv a → Inv (f a b)) :
    ∀ l : List β, (∀ b ∈ l, b ∈ big) → ∀ a, Inv a → Inv (l.foldl f a) := by
  intro l
  induction l with
  | nil => intro _ a h; exact h
  | cons x rest ih =>
    intro hsub a h
    exact ih (fun b hb => hsub b (List.mem_cons_of_mem x hb)) (f a x)
      (hs a x (hsub x (List.mem_cons_self x rest)) h)

theorem matchFuzzy_from_exact (P : PromptParser) (ratio : Str → Str → Q) (t : Str)
    (th : Q) (l : List (Str × Str)) (s : Q)
    (h : matchFuzzy P ratio t th = some (l, s)) : ∃ key, (key, l) ∈ P.exactIndex := by
  simp only [matchFuzzy] at h
  have hInv := foldlInvMem
    (fun acc : Option (List (Str × Str)) × Q =>
      acc.1 = none ∨ ∃ key lx, acc.1 = some lx ∧ (key, lx) ∈ P.exactIndex)
    (fun acc p =>
      if Q.lt acc.2 (ratio (lowerStr t) p.1) = true ∧ Q.le th (ratio (lowerStr t) p.1) = true
      then (some p.2, ratio (lowerStr t) p.1) else acc)
    P.exactIndex
    (by
      intro acc p hp hInv
      by_cases hc : Q.lt acc.2 (ratio (lowerStr t) p.1) = true ∧
          Q.le th (ratio (lowerStr t) p.1) = true
      · simp only [hc, if_pos hc]
        right
        exact ⟨p.1, p.2, rfl, hp⟩
      · simp only [hc, if_neg hc]
        exact hInv)
    P.exactIndex (fun b hb => hb) (none, qZero) (Or.inl rfl)
  rcases hfold : (P.exactIndex.foldl
      (fun acc p =>
        if Q.lt acc.2 (ratio (lowerStr t) p.1) = true ∧ Q.le th (ratio (lowerStr t) p.1) = true
        then (some p.2, ratio (lowerStr t) p.1) else acc) (none, qZero)) with ⟨bm, bs⟩
  rw [hfold] at hInv h
  cases bm with
  | none => cases h
  | some lst =>
    cases lst with
    | nil => cases h
    | cons a as =>
      simp only [Option.some.injEq, Prod.mk.injEq] at h
      obtain ⟨h1, _⟩ := h
      rcases hInv with hInv | ⟨key, lx, hlx, hmem⟩
      · cases hInv
      · simp only [Option.some.injEq] at hlx
        subst h1
        rw [hlx]
        exact ⟨key, hmem⟩

/-- C6 (amended): a token's winning candidates are assigned to the first
candidate slot not already filled, in the order of the winning strategy's
returned list; if every candidate slot is filled the token is recorded as
unmatched.  For the exact and normalized indices (and hence for the fuzzy
strategy, whose result is always an exact-index entry), that list order is
the Slot Schema declaration order; the word-intersection strategy's order
is a Python set-iteration order and is NOT guaranteed to follow slot
declaration order. -/
theorem c6_amended :
    (∀ (st : ParseState) (text : Str) (w : Q) (color : Option Str) (conf : Q)
        (l : List (Str × Str)),
      (∀ p ∈ l, dHas st.results p.1 = true) →
      assignFirst st text w color conf l =
        { st with unmatched := st.unmatched ++ [text] }) ∧
    (∀ (st : ParseState) (text : Str) (w : Q) (color : Option Str) (conf : Q)
        (l₁ : List (Str × Str)) (s id : Str) (l₂ : List (Str × Str)),
      (∀ p ∈ l₁, dHas st.results p.1 = true) → dHas st.results s = false →
      assignFirst st text w color conf (l₁ ++ (s, id) :: l₂) =
        { st with
            results := dSet st.results s
              ⟨id, (if slotHasColor s then color else none), w, true, conf⟩,
            matchedCount := st.matchedCount + 1 }) ∧
    (∀ env key l, dGet (buildParserIndices env).exactIndex key = some l →
      l.Chain' (fun a b => slotPos a.1 ≤ slotPos b.1)) ∧
    (∀ env key l, dGet (buildParserIndices env).normalizedIndex key = some l →
      l.Chain' (fun a b => slotPos a.1 ≤ slotPos b.1)) ∧
    (∀ (P : PromptParser) (ratio : Str → Str → Q) (t : Str) (th : Q)
        (l : List (Str × Str)) (s : Q),
      matchFuzzy P ratio t th = some (l, s) → ∃ key, (key, l) ∈ P.exactIndex) := by
  refine ⟨?_, ?_, ?_, ?_, matchFuzzy_from_exact⟩
  · intro st text w color conf l h
    exact assignFirst_all_filled st text w color conf l h
  · intro st text w color conf l₁ s id l₂ h hs
    exact assignFirst_first_unfilled st text w color conf l₁ s id l₂ h hs
  · intro env key l h
    exact ((buildParserIndices_sorted env).1 key l (dGet_mem _ _ _ h)).1
  · intro env key l h
    exact ((buildParserIndices_sorted env).2 key l (dGet_mem _ _ _ h)).1

/-- C6 witness: assignment at a concrete state and the sortedness of a
concrete exact-index entry. -/
theorem c6_amended_witness :
    assignFirst ⟨[], [], 0⟩ ("x".toList) qOne none qOne
        ([] ++ (upperBodyName, "u1".toList) :: []) =
      { results := dSet ([] : List (Str × ParseSlot)) upperBodyName
          ⟨"u1".toList, (if slotHasColor upperBodyName then (none : Option Str) else none),
            qOne, true, qOne⟩,
        unmatched := [], matchedCount := 0 + 1 } ∧
    ([(upperBodyName, "u1".toList)] : List (Str × Str)).Chain'
      (fun a b => slotPos a.1 ≤ slotPos b.1) :=
  ⟨c6_amended.2.1 ⟨[], [], 0⟩ ("x".toList) qOne none qOne [] upperBodyName ("u1".toList) []
      (by intro p hp; cases hp) (by decide),
   c6_amended.2.2.1 envC6 ("alpha beta gamma".toList) [(upperBodyName, "u1".toList)]
     (by decide)⟩

/-! ## C1: round trip from assembler to parser -/

theorem tokenize_comma_append (a b : Str) (ha : ',' ∉ a) :
    tokenize (a ++ ',' :: b) = tokenize a ++ tokenize b := by
  unfold tokenize
  rw [splitOnChar_append ',' a b ha, splitOnChar_no_sep ',' a ha]
  simp [List.filterMap_cons]
  cases tokenizePart a <;> simp

theorem tokenize_cons_space (p : Str) : tokenize (' ' :: p) = tokenize p := by
  unfold tokenize
  have hne : ' ' ≠ ',' := by decide
  simp only [splitOnChar, hne, if_false]
  rcases hs : splitOnChar ',' p with _ | ⟨h, rest⟩
  · exact absurd hs (splitOnChar_ne_nil ',' p)
  · simp only [List.filterMap_cons,
      tokenizePart_congr (' ' :: h) h (pyStrip_cons_space h)]

theorem tokenize_single (p : Str) (h : ',' ∉ p) :
    tokenize p = (tokenizePart p).toList := by
  unfold tokenize
  rw [splitOnChar_no_sep ',' p h]
  cases h2 : tokenizePart p <;> simp [h2]

def tokensOfParts (parts : List Str) : List PToken :=
  parts.foldr (fun p acc => (tokenizePart p).toList ++ acc) []

theorem tokenize_joinSep (p0 : Str) (h0 : ',' ∉ p0) :
    ∀ parts : List Str, (∀ p ∈ parts, ',' ∉ p) →
      tokenize (joinSep commaSpace (p0 :: parts)) =
        (tokenizePart p0).toList ++ tokensOfParts parts := by
  intro parts
  induction parts generalizing p0 h0 with
  | nil =>
    intro _
    simp only [joinSep, tokensOfParts, List.foldr_nil, List.append_nil]
    exact tokenize_single p0 h0
  | cons p1 rest ih =>
    intro hall
    have hj : joinSep commaSpace (p0 :: p1 :: rest) =
        p0 ++ ',' :: ' ' :: joinSep commaSpace (p1 :: rest) := by
      simp [joinSep, commaSpace]
    rw [hj, tokenize_comma_append p0 _ h0, tokenize_cons_space]
    rw [ih p1 (hall p1 (List.mem_cons_self p1 rest))
      (fun p hp => hall p (List.mem_cons_of_mem p1 hp))]
    simp [tokensOfParts, tokenize_single p0 h0]

/-- The emitted `(slot, state)` pairs of the assembler, in emission order. -/
def emittedPairs (env : Env) (cfg : GeneratorConfig) (lang : Str) :
    List (Str × SlotConfig) :=
  slotOrder.filterMap (fun s => (slotEmitted env cfg s).map (fun sc => (s, sc)))

theorem buildParts_eq_emittedPairs (env : Env) (cfg : GeneratorConfig) (lang : Str) :
    buildParts env cfg lang = (emittedPairs env cfg lang).map
      (fun p => (p.1, renderSegment (segText env p.1 p.2 lang) p.2.weight)) := by
  unfold buildParts emittedPairs
  induction slotOrder with
  | nil => rfl
  | cons s rest ih =>
    simp only [List.filterMap_cons]
    cases slotEmitted env cfg s with
    | none => simpa using ih
    | some sc => simpa using ih

/-- The token that the parser recovers from an emitted slot's segment. -/
def tokenOf (env : Env) (lang : Str) (p : Str × SlotConfig) : PToken :=
  ⟨segText env p.1 p.2 lang,
    if Q.eqv p.2.weight qOne then qOne else (pyFloat? (fmt1 p.2.weight)).getD qOne⟩

/-- All the side conditions under which one emitted slot's segment
survives the comma split, the weight unwrap, the skip list, color
extraction, and resolves through the exact index back to itself. -/
def SafeSlot (env : Env) (P : PromptParser) (lang : Str) (s : Str) (sc : SlotConfig) : Prop :=
  segText env s sc lang ≠ [] ∧
  pyStrip (segText env s sc lang) = segText env s sc lang ∧
  ',' ∉ segText env s sc lang ∧
  lowerStr (segText env s sc lang) ∉ skipTokensList ∧
  (Q.eqv sc.weight qOne = true →
    ¬((segText env s sc lang).head? = some '(' ∧
      (segText env s sc lang).getLast? = some ')' ∧
      (segText env s sc lang).contains ':' = true)) ∧
  (P.colorTrie.findPrefixM (segText env s sc lang)).map Prod.snd =
    (segColorText env sc lang).map (fun c => c.length + 1) ∧
  pyStrip (displayName env s sc lang) = displayName env s sc lang ∧
  dGet P.exactIndex (lowerStr (displayName env s sc lang)) =
    some [(s, sc.value_id.getD [])]

theorem renderSegment_no_comma (t : Str) (w : Q) (h : ',' ∉ t) :
    ',' ∉ renderSegment t w := by
  unfold renderSegment
  by_cases he : Q.eqv w qOne = true
  · simp only [he, not_true_eq_false, if_false]
    exact h
  · have he' : Q.eqv w qOne = false := by simpa using he
    simp only [he', Bool.false_eq_true, not_false_eq_true, if_true]
    intro hm
    rcases List.mem_append.mp hm with h1 | h1
    · rcases List.mem_cons.mp h1 with h2 | h2
      · cases h2
      · rcases List.mem_append.mp h2 with h3 | h3
        · exact h h3
        · rcases List.mem_cons.mp h3 with h4 | h4
          · cases h4
          · exact fmt1_no_comma w h4
    · rcases List.mem_singleton.mp h1 with h2
      cases h2

theorem tokenizePart_renderSegment (env : Env) (P : PromptParser) (lang : Str)
    (s : Str) (sc : SlotConfig) (hsafe : SafeSlot env P lang s sc) :
    tokenizePart (renderSegment (segText env s sc lang) sc.weight) =
      some (tokenOf env lang (s, sc)) := by
  obtain ⟨ha, hb, hc, hd, he, hf, hg, hh⟩ := hsafe
  unfold renderSegment tokenOf
  by_cases heq : Q.eqv sc.weight qOne = true
  · simp only [heq, not_true_eq_false, if_false, if_true]
    unfold tokenizePart
    rw [hb, if_neg ha, if_neg (he heq)]
  · have heq' : Q.eqv sc.weight qOne = false := by simpa using heq
    simp only [heq', Bool.false_eq_true, not_false_eq_true, if_true, if_false]
    exact tokenizePart_wrapped _ sc.weight ha

theorem tokensOfParts_emitted (env : Env) (P : PromptParser) (lang : Str) :
    ∀ l : List (Str × SlotConfig),
      (∀ p ∈ l, SafeSlot env P lang p.1 p.2) →
      tokensOfParts (l.map (fun p => renderSegment (segText env p.1 p.2 lang) p.2.weight)) =
        l.map (tokenOf env lang) := by
  intro l
  induction l with
  | nil => intro _; rfl
  | cons p rest ih =>
    intro h
    obtain ⟨s, sc⟩ := p
    simp only [List.map_cons, tokensOfParts, List.foldr_cons]
    rw [tokenizePart_renderSegment env P lang s sc (h (s, sc) (List.mem_cons_self _ _))]
    have := ih (fun q hq => h q (List.mem_cons_of_mem _ hq))
    simp only [tokensOfParts] at this
    rw [this]
    rfl

theorem assignFirst_mono (st : ParseState) (text : Str) (w : Q) (color : Option Str)
    (conf : Q) (x : Str) (r : ParseSlot) (hx : dGet st.results x = some r) :
    ∀ l : List (Str × Str),
      dGet (assignFirst st text w color conf l).results x = some r := by
  intro l
  induction l with
  | nil => exact hx
  | cons p rest ih =>
    obtain ⟨sn, iid⟩ := p
    by_cases h : dHas st.results sn = true
    · simp only [assignFirst, h, Bool.true_eq_false, not_true_eq_false, if_false]
      exact ih
    · have h' : dHas st.results sn = false := by simpa using h
      have hne : sn ≠ x := by
        intro e
        subst e
        rw [dHas, hx] at h'
        cases h'
      simp only [assignFirst, h', Bool.false_eq_true, not_false_eq_true, if_true]
      simpa using (dGet_dSet_ne st.results sn x _ hne).symm ▸ hx

theorem parseStep_mono (P : PromptParser) (ratio : Str → Str → Q)
    (setEnum : List (Str × Str) → List (Str × Str)) (useFuzzy : Bool)
    (st : ParseState) (tok : PToken) (x : Str) (r : ParseSlot)
    (hx : dGet st.results x = some r) :
    dGet (parseStep P ratio setEnum useFuzzy st tok).results x = some r := by
  by_cases hsk : lowerStr tok.text ∈ skipTokensList
  · rw [(parseStep_shape P ratio setEnum useFuzzy st tok).1 hsk]
    exact hx
  · obtain ⟨color, conf, cand, hstep⟩ := (parseStep_shape P ratio setEnum useFuzzy st tok).2 hsk
    rw [hstep]
    exact assignFirst_mono st tok.text tok.weight color conf x r hx cand

theorem parseFold_mono (P : PromptParser) (ratio : Str → Str → Q)
    (setEnum : List (Str × Str) → List (Str × Str)) (useFuzzy : Bool) :
    ∀ (toks : List PToken) (st : ParseState) (x : Str) (r : ParseSlot),
      dGet st.results x = some r →
      dGet ((toks.foldl (parseStep P ratio setEnum useFuzzy) st)).results x = some r := by
  intro toks
  induction toks with
  | nil => intro st x r hx; exact hx
  | cons tok rest ih =>
    intro st x r hx
    simp only [List.foldl_cons]
    exact ih _ x r (parseStep_mono P ratio setEnum useFuzzy st tok x r hx)

theorem parseStep_safe (env : Env) (P : PromptParser) (lang : Str)
    (ratio : Str → Str → Q) (setEnum : List (Str × Str) → List (Str × Str))
    (useFuzzy : Bool) (s : Str) (sc : SlotConfig) (st : ParseState)
    (hsafe : SafeSlot env P lang s sc) (hfree : dHas st.results s = false) :
    ∃ r : ParseSlot,
      parseStep P ratio setEnum useFuzzy st (tokenOf env lang (s, sc)) =
        { st with results := dSet st.results s r,
                  matchedCount := st.matchedCount + 1 } ∧
      r.value_id = sc.value_id.getD [] := by
  obtain ⟨ha, hb, hc, hd, he, hf, hg, hh⟩ := hsafe
  have htext : (tokenOf env lang (s, sc)).text = segText env s sc lang := rfl
  have hextract : extractColor P (segText env s sc lang) =
      ((P.colorTrie.findPrefixM (segText env s sc lang)).map Prod.fst,
        displayName env s sc lang) := by
    unfold extractColor
    cases hfp : P.colorTrie.findPrefixM (segText env s sc lang) with
    | none =>
      rw [hfp] at hf
      cases hct : segColorText env sc lang with
      | none =>
        simp only [Option.map_none']
        unfold segText
        rw [hct]
      | some c => rw [hct] at hf; cases hf
    | some pr =>
      obtain ⟨canon, n⟩ := pr
      rw [hfp] at hf
      cases hct : segColorText env sc lang with
      | none => rw [hct] at hf; cases hf
      | some c =>
        rw [hct] at hf
        simp only [Option.map_some', Option.some.injEq] at hf
        subst hf
        simp only [Option.map_some']
        have hseg : segText env s sc lang = c ++ ' ' :: displayName env s sc lang := by
          unfold segText
          rw [hct]
        rw [hseg]
        have hdrop : (c ++ ' ' :: displayName env s sc lang).drop (c.length + 1) =
            displayName env s sc lang := by
          rw [show c ++ ' ' :: displayName env s sc lang =
            (c ++ [' ']) ++ displayName env s sc lang by simp]
          rw [show c.length + 1 = (c ++ [' ']).length by simp]
          exact List.drop_left _ _
        rw [hdrop, hg]
  have hcasc : cascade P ratio setEnum useFuzzy (displayName env s sc lang) =
      (some [(s, sc.value_id.getD [])], qOne) := by
    unfold cascade matchExact
    rw [hh]
    simp [truthyL]
  unfold parseStep
  rw [htext, if_neg hd]
  split
  next color itemText heq =>
    rw [hextract] at heq
    obtain ⟨rfl, rfl⟩ : _ ∧ _ := by
      have h1 := congrArg Prod.fst heq
      have h2 := congrArg Prod.snd heq
      exact ⟨h1.symm, h2.symm⟩
    split
    next m conf heq2 =>
      rw [hcasc] at heq2
      obtain ⟨rfl, rfl⟩ : _ ∧ _ := by
        have h1 := congrArg Prod.fst heq2
        have h2 := congrArg Prod.snd heq2
        exact ⟨h1.symm, h2.symm⟩
      have htr : truthyL (some [(s, sc.value_id.getD [])]) = true := rfl
      rw [if_pos htr]
      refine ⟨⟨sc.value_id.getD [],
        (if slotHasColor s then
          (P.colorTrie.findPrefixM (segText env s sc lang)).map Prod.fst else none),
        (tokenOf env lang (s, sc)).weight, true, qOne⟩, ?_, rfl⟩
      simp [assignFirst, hfree]

theorem emittedPairs_fst_sublist (env : Env) (cfg : GeneratorConfig) :
    ∀ l : List Str,
      ((l.filterMap (fun s => (slotEmitted env cfg s).map (fun sc => (s, sc)))).map
        Prod.fst).Sublist l := by
  intro l
  induction l with
  | nil => exact List.Sublist.refl _
  | cons s rest ih =>
    simp only [List.filterMap_cons]
    cases slotEmitted env cfg s with
    | none => exact ih.cons s
    | some sc => simpa using ih.cons₂ s

theorem emittedPairs_fst_nodup (env : Env) (cfg : GeneratorConfig) (lang : Str) :
    ((emittedPairs env cfg lang).map Prod.fst).Nodup :=
  (show slotOrder.Nodup by decide).sublist (emittedPairs_fst_sublist env cfg slotOrder)

theorem parseFold_safe (env : Env) (P : PromptParser) (lang : Str)
    (ratio : Str → Str → Q) (setEnum : List (Str × Str) → List (Str × Str))
    (useFuzzy : Bool) :
    ∀ (l : List (Str × SlotConfig)) (st : ParseState),
      (∀ p ∈ l, SafeSlot env P lang p.1 p.2) →
      (∀ p ∈ l, dHas st.results p.1 = false) →
      (l.map Prod.fst).Nodup →
      ∀ p ∈ l, ∃ r : ParseSlot,
        dGet ((l.map (tokenOf env lang)).foldl
          (parseStep P ratio setEnum useFuzzy) st).results p.1 = some r ∧
        r.value_id = p.2.value_id.getD [] := by
  intro l
  induction l with
  | nil => intro st _ _ _ p hp; cases hp
  | cons q rest ih =>
    intro st hsafe hfree hnd p hp
    obtain ⟨s, sc⟩ := q
    obtain ⟨r, hstep, hrid⟩ := parseStep_safe env P lang ratio setEnum useFuzzy s sc st
      (hsafe (s, sc) (List.mem_cons_self _ _)) (hfree (s, sc) (List.mem_cons_self _ _))
    simp only [List.map_cons, List.foldl_cons, hstep]
    simp only [List.map_cons, List.nodup_cons] at hnd
    rcases List.mem_cons.mp hp with hp | hp
    · cases hp
      refine ⟨r, ?_, hrid⟩
      exact parseFold_mono P ratio setEnum useFuzzy _ _ s r (dGet_dSet_self st.results s r)
    · apply ih _ (fun q hq => hsafe q (List.mem_cons_of_mem _ hq)) _ hnd.2 p hp
      intro q hq
      have hne : s ≠ q.1 := by
        intro e
        exact hnd.1 (e ▸ List.mem_map_of_mem Prod.fst hq)
      show dHas (dSet st.results s r) q.1 = false
      rw [dHas_dSet, if_neg hne]
      exact hfree q (List.mem_cons_of_mem _ hq)

/-- C1: round-trip from assembler to parser.  The original claim's sole
proviso (no duplicate display names across slots) is not sufficient; the
amended statement instead assumes, for each emitted slot, the
`SafeSlot` side conditions (segment text nonempty, strip-invariant,
comma-free, not a skip token, not weight-syntax-shaped when the weight
is 1, color prefix extracted exactly, display name strip-invariant and
resolving uniquely to this slot through the exact index).  Under these,
parsing the assembled prompt (with or without fuzzy matching) yields,
for every emitted slot, a matched slot whose `value_id` equals the
original. -/
theorem c1_amended (env : Env) (cfg : GeneratorConfig) (lang : Str)
    (ratio : Str → Str → Q) (setEnum : List (Str × Str) → List (Str × Str))
    (useFuzzy : Bool)
    (hsafe : ∀ p ∈ emittedPairs env cfg lang,
      SafeSlot env (buildParserIndices env) lang p.1 p.2)
    (s : Str) (sc : SlotConfig) (hmem : (s, sc) ∈ emittedPairs env cfg lang) :
    ∃ r : ParseSlot,
      dGet (parse (buildParserIndices env) ratio setEnum
          (buildPromptLocalized env cfg lang) useFuzzy).slots s = some r ∧
      r.value_id = sc.value_id.getD [] := by
  have hparts : (buildParts env cfg lang).map Prod.snd =
      (emittedPairs env cfg lang).map
        (fun p => renderSegment (segText env p.1 p.2 lang) p.2.weight) := by
    rw [buildParts_eq_emittedPairs, List.map_map]
    rfl
  have hcomma : ∀ q ∈ (emittedPairs env cfg lang).map
      (fun p => renderSegment (segText env p.1 p.2 lang) p.2.weight), ',' ∉ q := by
    intro q hq
    obtain ⟨p, hp, rfl⟩ := List.mem_map.mp hq
    exact renderSegment_no_comma _ _ (hsafe p hp).2.2.1
  have htok : tokenize (buildPromptLocalized env cfg lang) =
      ⟨oneGirl, qOne⟩ :: (emittedPairs env cfg lang).map (tokenOf env lang) := by
    unfold buildPromptLocalized
    rw [hparts, tokenize_joinSep oneGirl (by decide) _ hcomma]
    rw [show tokensOfParts ((emittedPairs env cfg lang).map
        (fun p => renderSegment (segText env p.1 p.2 lang) p.2.weight)) =
      (emittedPairs env cfg lang).map (tokenOf env lang) from
      tokensOfParts_emitted env (buildParserIndices env) lang _ hsafe]
    rfl
  have hskip : parseStep (buildParserIndices env) ratio setEnum useFuzzy
      ⟨[], [], 0⟩ ⟨oneGirl, qOne⟩ = ⟨[], [], 0⟩ :=
    (parseStep_shape (buildParserIndices env) ratio setEnum useFuzzy
      ⟨[], [], 0⟩ ⟨oneGirl, qOne⟩).1 (by decide)
  have hparse : (parse (buildParserIndices env) ratio setEnum
      (buildPromptLocalized env cfg lang) useFuzzy).slots =
      (((emittedPairs env cfg lang).map (tokenOf env lang)).foldl
        (parseStep (buildParserIndices env) ratio setEnum useFuzzy)
        ⟨[], [], 0⟩).results := by
    show ((tokenize (buildPromptLocalized env cfg lang)).foldl
        (parseStep (buildParserIndices env) ratio setEnum useFuzzy)
        ⟨[], [], 0⟩).results = _
    rw [htok]
    simp only [List.foldl_cons, hskip]
  obtain ⟨r, hr, hrid⟩ := parseFold_safe env (buildParserIndices env) lang ratio setEnum
    useFuzzy (emittedPairs env cfg lang) ⟨[], [], 0⟩ hsafe
    (fun p _ => rfl) (emittedPairs_fst_nodup env cfg lang) (s, sc) hmem
  rw [hparse]
  exact ⟨r, hr, hrid⟩

/-! ## C1: concrete instances -/

instance (env : Env) (P : PromptParser) (lang : Str) (s : Str) (sc : SlotConfig) :
    Decidable (SafeSlot env P lang s sc) := by
  unfold SafeSlot
  infer_instance

def itemC1 : Item := ⟨"bg1".toList, some ("a, b".toList), [], false⟩

def envC1 : Env :=
  { slotOptions := [("background".toList, [itemC1])]
  , catalogItems := [("backgrounds".toList, [itemC1])]
  , individualColors := [], colorI18n := [], palettes := [] }

def cfgC1 : GeneratorConfig :=
  { slots := [("background".toList, { value_id := some ("bg1".toList) })]
  , color_mode := "none".toList }

/-- C1 counterexample: one catalog with the single item `a, b` (so no
duplicate display name exists anywhere), whose `background` slot is
emitted; the assembled prompt is `1girl, a, b`, the comma inside the
name splits it into unmatched tokens `a` and `b`, and parsing (fuzzy
disabled) recovers no `background` slot at all. -/
theorem c1_counterexample :
    (emittedPairs envC1 cfgC1 enName).map Prod.fst = ["background".toList] ∧
    (buildParserIndices envC1).exactIndex =
      [("a, b".toList, [("background".toList, "bg1".toList)])] ∧
    buildPromptLocalized envC1 cfgC1 enName = "1girl, a, b".toList ∧
    dGet (parse (buildParserIndices envC1) (fun _ _ => qZero) (fun l => l)
      (buildPromptLocalized envC1 cfgC1 enName) false).slots ("background".toList) =
      none := by
  refine ⟨by decide, by decide, by decide, by decide⟩

def itemC1W : Item := ⟨"bg1".toList, some ("forest".toList), [], false⟩

def envC1W : Env :=
  { slotOptions := [("background".toList, [itemC1W])]
  , catalogItems := [("backgrounds".toList, [itemC1W])]
  , individualColors := [], colorI18n := [], palettes := [] }

def cfgC1W : GeneratorConfig :=
  { slots := [("background".toList, { value_id := some ("bg1".toList) })]
  , color_mode := "none".toList }

/-- C1 witness: a one-slot configuration whose emitted segment satisfies
all `SafeSlot` side conditions round-trips: parsing the assembled prompt
recovers the `background` slot with the original `value_id`. -/
theorem c1_amended_witness :
    ∃ r : ParseSlot,
      dGet (parse (buildParserIndices envC1W) (fun _ _ => qZero) (fun l => l)
          (buildPromptLocalized envC1W cfgC1W enName) false).slots
        ("background".toList) = some r ∧
      r.value_id = (SlotConfig.value_id { value_id := some ("bg1".toList) }).getD [] :=
  c1_amended envC1W cfgC1W enName (fun _ _ => qZero) (fun l => l) false
    (by decide) ("background".toList) { value_id := some ("bg1".toList) } (by decide)
